import Mathlib

/-!
Verification of `graphology-components` (src/src/components/index.js).

The module computes weakly connected components of a graph (iterative
stack-based DFS), the largest weak component (with an early-exit test),
a subgraph restricted to the largest component, an in-place crop, and
strongly connected components (path-based, Pearce-style recursive DFS).

Shallow embedding conventions:
- node identifiers are natural numbers (graphology uses strings; only
  equality and hashing are needed);
- a graph stores its nodes in enumeration order together with a node
  attribute, its edges as records (key, source, target, undirected flag,
  attribute), and a directionality type;
- the JavaScript `Set` named `seen` becomes a `Finset Nat` (only
  membership and size are consulted); the explicit traversal stack
  becomes a `List Nat` whose head is the stack top;
- callback-style iterators (`forEachConnectedComponent`) are embedded as
  the list of arguments they pass to the callback, in emission order;
- `stronglyConnectedComponents` can throw, so it returns `Except`;
- every Lean `Graph` value is a valid graphology instance, so the
  `isGraph` guard at the top of each function never throws and is
  omitted from the embedding.
-/

namespace Graphology

/-- An edge record: key, source, target, whether the edge is undirected,
and its attribute payload. -/
structure Edge where
  key : Nat
  source : Nat
  target : Nat
  undirected : Bool
  attr : Nat
deriving DecidableEq, Repr

/-- The directionality classification of a graph (`graph.type`). -/
inductive GraphType where
  | directed
  | undirected
  | mixed
deriving DecidableEq, Repr

/-- A graphology graph: nodes in enumeration order, each with an
attribute, plus edges and a type. -/
structure Graph where
  nodes : List (Nat × Nat)
  edges : List Edge
  type : GraphType
deriving DecidableEq, Repr

namespace Graph

/-- Node keys in enumeration order (what `graph.nodes()` and
`graph.forEachNode` iterate). -/
def nodeIds (g : Graph) : List Nat := g.nodes.map Prod.fst

/-- Number of nodes (`graph.order`). -/
def order (g : Graph) : Nat := g.nodes.length

/-- Number of edges (`graph.size`). -/
def size (g : Graph) : Nat := g.edges.length

/-- Node keys as a finite set. -/
def nodesF (g : Graph) : Finset Nat := g.nodeIds.toFinset

/-- Attribute of a node (`graph.getNodeAttributes`); total with default 0,
only ever consulted on present nodes. -/
def getNodeAttr (g : Graph) (k : Nat) : Nat := (g.nodes.lookup k).getD 0

end Graph

/-- The node an edge connects `n` to, ignoring direction; `none` if the
edge does not touch `n`. -/
def Edge.other (e : Edge) (n : Nat) : Option Nat :=
  if e.source = n then some e.target
  else if e.target = n then some e.source
  else none

/-- The node an edge leads to from `n` in the outbound sense: directed
edges only from their source, undirected edges from either endpoint. -/
def Edge.outTo (e : Edge) (n : Nat) : Option Nat :=
  if e.undirected then e.other n
  else if e.source = n then some e.target else none

/-- Neighbors of `n` ignoring edge direction (`graph.forEachNeighbor`):
every node connected to `n` by any edge. The JavaScript iterator visits
each distinct neighbor once; this list may repeat a neighbor connected by
parallel edges, which affects none of the traversals (a stacked node that
is already seen is skipped). -/
def Graph.neighbors (g : Graph) (n : Nat) : List Nat :=
  g.edges.filterMap (fun e => e.other n)

/-- Outbound neighbors of `n` (`graph.outboundNeighbors`): targets of
directed edges out of `n`, plus undirected neighbors. -/
def Graph.outboundNeighbors (g : Graph) (n : Nat) : List Nat :=
  g.edges.filterMap (fun e => e.outTo n)

/-- Every node key that can ever appear in a traversal: declared nodes
and edge endpoints. Used as the termination universe. -/
def Graph.univ (g : Graph) : List Nat :=
  g.nodeIds ++ g.edges.flatMap (fun e => [e.source, e.target])

/-- The termination universe as a finite set. -/
def Graph.univF (g : Graph) : Finset Nat := g.univ.toFinset

/-- Well-formedness: node keys are distinct and every edge endpoint is a
declared node. -/
def Graph.WF (g : Graph) : Prop :=
  g.nodeIds.Nodup ∧
  (∀ e ∈ g.edges, e.source ∈ g.nodeIds) ∧
  (∀ e ∈ g.edges, e.target ∈ g.nodeIds)

instance (g : Graph) : Decidable g.WF := by
  unfold Graph.WF; infer_instance

theorem neighbors_mem_univF (g : Graph) {n y : Nat} (hy : y ∈ g.neighbors n) :
    y ∈ g.univF := by
  simp only [Graph.neighbors, List.mem_filterMap] at hy
  obtain ⟨e, he, hey⟩ := hy
  simp only [Graph.univF, Graph.univ, List.toFinset_append, Finset.mem_union,
    List.mem_toFinset, List.mem_flatMap]
  right
  refine ⟨e, he, ?_⟩
  simp only [Edge.other] at hey
  split at hey
  · simp_all
  · split at hey <;> simp_all

theorem nodesF_subset_univF (g : Graph) : g.nodesF ⊆ g.univF := by
  intro x hx
  simp only [Graph.nodesF, List.mem_toFinset] at hx
  simp only [Graph.univF, Graph.univ, List.toFinset_append, Finset.mem_union,
    List.mem_toFinset]
  exact Or.inl hx

/-- The termination measure of the traversal loops is unchanged when a
seen node is popped. -/
theorem dfs_measure_eq (g : Graph) (seen : Finset Nat) (source : Nat)
    (rest : List Nat) (h : source ∈ seen) :
    (g.univF ∪ (source :: rest).toFinset) \ seen
      = (g.univF ∪ rest.toFinset) \ seen := by
  ext x
  simp only [Finset.mem_sdiff, Finset.mem_union, List.toFinset_cons,
    Finset.mem_insert, List.mem_toFinset]
  constructor
  · rintro ⟨h1 | (h2 | h3), h4⟩
    · exact ⟨Or.inl h1, h4⟩
    · exact absurd (h2 ▸ h) h4
    · exact ⟨Or.inr h3, h4⟩
  · rintro ⟨h1 | h2, h4⟩
    · exact ⟨Or.inl h1, h4⟩
    · exact ⟨Or.inr (Or.inr h2), h4⟩

/-- The termination measure of the traversal loops strictly decreases
when an unseen node is popped and any nodes from the universe are pushed
in its place. -/
theorem dfs_measure_lt (g : Graph) (seen : Finset Nat) (source : Nat)
    (rest extra : List Nat) (hex : ∀ x ∈ extra, x ∈ g.univF)
    (h : source ∉ seen) :
    ((g.univF ∪ (extra ++ rest).toFinset) \ insert source seen).card
      < ((g.univF ∪ (source :: rest).toFinset) \ seen).card := by
  apply Finset.card_lt_card
  constructor
  · intro x hx
    simp only [Finset.mem_sdiff, Finset.mem_union, List.mem_toFinset,
      List.mem_append, Finset.mem_insert] at hx
    have hxs : x ≠ source ∧ x ∉ seen := by
      rcases hx with ⟨_, hni⟩
      push_neg at hni
      exact ⟨hni.1, hni.2⟩
    simp only [Finset.mem_sdiff, Finset.mem_union, List.mem_toFinset,
      List.mem_cons]
    refine ⟨?_, hxs.2⟩
    rcases hx with ⟨h1 | (h2 | h3), _⟩
    · exact Or.inl h1
    · exact Or.inl (hex x h2)
    · exact Or.inr (Or.inr h3)
  · intro hsub
    have hmem : source ∈ (g.univF ∪ (source :: rest).toFinset) \ seen :=
      Finset.mem_sdiff.mpr
        ⟨Finset.mem_union_right _
          (List.mem_toFinset.mpr (List.mem_cons_self _ _)), h⟩
    exact (Finset.mem_sdiff.mp (hsub hmem)).2 (Finset.mem_insert_self _ _)

/-- The inner loop of `forEachConnectedComponent`: pop the stack head;
skip it if seen; otherwise mark it seen, record it in the component, and
push its unseen neighbors. Returns the nodes added to the component (in
the order the JavaScript code appends them) and the final seen set. -/
def dfsGo (g : Graph) (seen : Finset Nat) (stack : List Nat) :
    List Nat × Finset Nat :=
  match stack with
  | [] => ([], seen)
  | source :: rest =>
    if source ∈ seen then dfsGo g seen rest
    else
      let p := dfsGo g (insert source seen)
        (((g.neighbors source).filter
            (fun t => decide (t ∉ insert source seen))).reverse ++ rest)
      (source :: p.1, p.2)
termination_by (((g.univF ∪ stack.toFinset) \ seen).card, stack.length)
decreasing_by
  · exact Prod.lex_iff.mpr
      (Or.inr ⟨congrArg Finset.card (dfs_measure_eq g seen source rest ‹_›).symm,
        by simp⟩)
  · exact Prod.Lex.left _ _
      (dfs_measure_lt g seen source rest _
        (fun x hx => neighbors_mem_univF g
          (List.mem_filter.mp (List.mem_reverse.mp hx)).1) ‹_›)

/-- The outer loop of `forEachConnectedComponent`: walk the nodes in
enumeration order, skip seen ones, and run the inner DFS from each
unseen root. Returns the emitted components in callback order, together
with the final seen set (the state of the `seen` closure variable). -/
def weakGoFull (g : Graph) (roots : List Nat) (seen : Finset Nat) :
    List (List Nat) × Finset Nat :=
  match roots with
  | [] => ([], seen)
  | r :: rest =>
    if r ∈ seen then weakGoFull g rest seen
    else
      let p := dfsGo g seen [r]
      let q := weakGoFull g rest p.2
      (p.1 :: q.1, q.2)

/-- Embedding of `forEachConnectedComponent`: the list of components
passed to the callback, in emission order. A null graph emits nothing. -/
def forEachConnectedComponent (g : Graph) : List (List Nat) :=
  if g.order = 0 then [] else (weakGoFull g g.nodeIds ∅).1

/-- Embedding of `connectedComponents`: accumulates the callback
arguments of `forEachConnectedComponent` into a list, which is exactly
the emission list itself. -/
def connectedComponents (g : Graph) : List (List Nat) :=
  forEachConnectedComponent g

/-- The inner loop of `forEachConnectedComponentOrder`: identical
traversal to `dfsGo` but only counts the nodes added to the component
(the `order` counter) instead of materializing them. -/
def dfsCount (g : Graph) (seen : Finset Nat) (stack : List Nat) :
    Nat × Finset Nat :=
  match stack with
  | [] => (0, seen)
  | source :: rest =>
    if source ∈ seen then dfsCount g seen rest
    else
      let p := dfsCount g (insert source seen)
        (((g.neighbors source).filter
            (fun t => decide (t ∉ insert source seen))).reverse ++ rest)
      (p.1 + 1, p.2)
termination_by (((g.univF ∪ stack.toFinset) \ seen).card, stack.length)
decreasing_by
  · exact Prod.lex_iff.mpr
      (Or.inr ⟨congrArg Finset.card (dfs_measure_eq g seen source rest ‹_›).symm,
        by simp⟩)
  · exact Prod.Lex.left _ _
      (dfs_measure_lt g seen source rest _
        (fun x hx => neighbors_mem_univF g
          (List.mem_filter.mp (List.mem_reverse.mp hx)).1) ‹_›)

/-- The outer loop of `forEachConnectedComponentOrder`. -/
def orderGoFull (g : Graph) (roots : List Nat) (seen : Finset Nat) :
    List Nat × Finset Nat :=
  match roots with
  | [] => ([], seen)
  | r :: rest =>
    if r ∈ seen then orderGoFull g rest seen
    else
      let p := dfsCount g seen [r]
      let q := orderGoFull g rest p.2
      (p.1 :: q.1, q.2)

/-- Embedding of `forEachConnectedComponentOrder`: the list of component
sizes passed to the callback, in emission order. -/
def forEachConnectedComponentOrder (g : Graph) : List Nat :=
  if g.order = 0 then [] else (orderGoFull g g.nodeIds ∅).1

/-- The update of the running champion in `largestConnectedComponent`:
replace it only when the new component is strictly larger. -/
def pickLarger (b c : List Nat) : List Nat := if b.length < c.length then c else b

/-- The `graph.someNode` loop of `largestConnectedComponent`: run the
weak DFS from each unseen root, update the champion, and stop as soon as
the champion is larger than the number of unvisited nodes. -/
def largestGo (g : Graph) (roots : List Nat) (seen : Finset Nat)
    (best : List Nat) : List Nat :=
  match roots with
  | [] => best
  | r :: rest =>
    if r ∈ seen then largestGo g rest seen best
    else
      let p := dfsGo g seen [r]
      let best1 := pickLarger best p.1
      if g.order - p.2.card < best1.length then best1
      else largestGo g rest p.2 best1

/-- Embedding of `largestConnectedComponent`. -/
def largestConnectedComponent (g : Graph) : List Nat :=
  if g.order = 0 then [] else largestGo g g.nodeIds ∅ []

/-- Embedding of `largestConnectedComponentSubgraph`: a null copy of the
graph that receives every component node with its attributes, then every
edge of the source graph whose source endpoint is in the component
(copied whole, with key, direction and attributes). -/
def largestConnectedComponentSubgraph (g : Graph) : Graph :=
  let component := largestConnectedComponent g
  { nodes := component.map (fun k => (k, g.getNodeAttr k)),
    edges := g.edges.filter (fun e => decide (e.source ∈ component)),
    type := g.type }

/-- Embedding of `graph.dropNode`: removes the node and, as the graph
engine cascades, every incident edge. -/
def Graph.dropNode (g : Graph) (k : Nat) : Graph :=
  { nodes := g.nodes.filter (fun p => decide (p.1 ≠ k)),
    edges := g.edges.filter (fun e => decide (e.source ≠ k ∧ e.target ≠ k)),
    type := g.type }

/-- Embedding of `cropToLargestConnectedComponent`: drop every node that
is not in the largest component. The iteration order is the node
enumeration order of the original graph; only the visited node itself is
ever dropped, so iterating over the snapshot is faithful. -/
def cropToLargestConnectedComponent (g : Graph) : Graph :=
  let component := (largestConnectedComponent g).toFinset
  g.nodeIds.foldl (fun h k => if k ∈ component then h else h.dropNode k) g

/-! Basic facts about the weak-component DFS. -/

/-- Undirected adjacency: `b` is a neighbor of `a`. -/
def Adj (g : Graph) (a b : Nat) : Prop := b ∈ g.neighbors a

/-- Undirected reachability: the reflexive-transitive closure of
adjacency. -/
def Reach (g : Graph) : Nat → Nat → Prop := Relation.ReflTransGen (Adj g)

theorem adj_symm (g : Graph) {a b : Nat} (h : Adj g a b) : Adj g b a := by
  simp only [Adj, Graph.neighbors, List.mem_filterMap] at h ⊢
  obtain ⟨e, he, hab⟩ := h
  refine ⟨e, he, ?_⟩
  simp only [Edge.other] at hab ⊢
  split at hab
  · split <;> simp_all
  · split at hab
    · simp_all
    · simp_all

theorem reach_symm (g : Graph) {a b : Nat} (h : Reach g a b) : Reach g b a := by
  induction h with
  | refl => exact Relation.ReflTransGen.refl
  | tail _ hstep ih =>
    exact Relation.ReflTransGen.trans
      (Relation.ReflTransGen.single (adj_symm g hstep)) ih

theorem neighbors_mem_nodesF (g : Graph) (hWF : g.WF) {n y : Nat}
    (hy : y ∈ g.neighbors n) : y ∈ g.nodesF := by
  simp only [Graph.neighbors, List.mem_filterMap] at hy
  obtain ⟨e, he, hey⟩ := hy
  simp only [Graph.nodesF, List.mem_toFinset]
  simp only [Edge.other] at hey
  split at hey
  · cases hey; exact hWF.2.2 e he
  · split at hey
    · cases hey; exact hWF.2.1 e he
    · cases hey

theorem dfsGo_nil (g : Graph) (seen : Finset Nat) :
    dfsGo g seen [] = ([], seen) := by
  rw [dfsGo]

theorem dfsGo_cons_mem (g : Graph) (seen : Finset Nat) {source : Nat}
    (rest : List Nat) (h : source ∈ seen) :
    dfsGo g seen (source :: rest) = dfsGo g seen rest := by
  rw [dfsGo]; simp only [if_pos h]

theorem dfsGo_cons_new (g : Graph) (seen : Finset Nat) {source : Nat}
    (rest : List Nat) (h : source ∉ seen) :
    dfsGo g seen (source :: rest) =
      (source :: (dfsGo g (insert source seen)
          (((g.neighbors source).filter
            (fun t => decide (t ∉ insert source seen))).reverse ++ rest)).1,
        (dfsGo g (insert source seen)
          (((g.neighbors source).filter
            (fun t => decide (t ∉ insert source seen))).reverse ++ rest)).2) := by
  rw [dfsGo]; simp only [if_neg h]

/-- The final seen set is the initial one plus exactly the nodes put in
the component. -/
theorem dfsGo_seen_eq (g : Graph) (seen : Finset Nat) (stack : List Nat) :
    (dfsGo g seen stack).2 = seen ∪ (dfsGo g seen stack).1.toFinset := by
  induction seen, stack using dfsGo.induct g
  case case1 seen => rw [dfsGo_nil]; simp
  case case2 seen source rest hmem ih => rw [dfsGo_cons_mem _ _ _ hmem]; exact ih
  case case3 seen source rest hmem ih =>
    rw [dfsGo_cons_new _ _ _ hmem]
    simp only [ih, List.toFinset_cons]
    ext x
    simp only [Finset.mem_union, Finset.mem_insert, List.mem_toFinset]
    tauto

theorem dfsGo_seen_subset (g : Graph) (seen : Finset Nat) (stack : List Nat) :
    seen ⊆ (dfsGo g seen stack).2 := by
  rw [dfsGo_seen_eq]; exact Finset.subset_union_left

/-- Nodes put in the component were not previously seen. -/
theorem dfsGo_comp_not_seen (g : Graph) (seen : Finset Nat) (stack : List Nat) :
    ∀ x ∈ (dfsGo g seen stack).1, x ∉ seen := by
  induction seen, stack using dfsGo.induct g
  case case1 seen => rw [dfsGo_nil]; simp
  case case2 seen source rest hmem ih => rw [dfsGo_cons_mem _ _ _ hmem]; exact ih
  case case3 seen source rest hmem ih =>
    rw [dfsGo_cons_new _ _ _ hmem]
    intro x hx
    rcases List.mem_cons.mp hx with rfl | hx
    · exact hmem
    · exact fun hxs => ih x hx (Finset.mem_insert_of_mem hxs)

/-- The component list contains no duplicates. -/
theorem dfsGo_comp_nodup (g : Graph) (seen : Finset Nat) (stack : List Nat) :
    (dfsGo g seen stack).1.Nodup := by
  induction seen, stack using dfsGo.induct g
  case case1 seen => rw [dfsGo_nil]; simp
  case case2 seen source rest hmem ih => rw [dfsGo_cons_mem _ _ _ hmem]; exact ih
  case case3 seen source rest hmem ih =>
    rw [dfsGo_cons_new _ _ _ hmem]
    refine List.nodup_cons.mpr ⟨fun hs => ?_, ih⟩
    exact dfsGo_comp_not_seen g _ _ _ hs (Finset.mem_insert_self _ _)

/-- Every node ever placed on the stack ends up seen. -/
theorem dfsGo_stack_mem (g : Graph) (seen : Finset Nat) (stack : List Nat) :
    ∀ x ∈ stack, x ∈ (dfsGo g seen stack).2 := by
  induction seen, stack using dfsGo.induct g
  case case1 seen => simp
  case case2 seen source rest hmem ih =>
    rw [dfsGo_cons_mem _ _ _ hmem]
    intro x hx
    rcases List.mem_cons.mp hx with rfl | hx
    · exact dfsGo_seen_subset g seen rest hmem
    · exact ih x hx
  case case3 seen source rest hmem ih =>
    rw [dfsGo_cons_new _ _ _ hmem]
    intro x hx
    rcases List.mem_cons.mp hx with rfl | hx
    · exact dfsGo_seen_subset g _ _ (Finset.mem_insert_self _ _)
    · exact ih x (List.mem_append_right _ hx)

/-- If the stack lies in a set that contains all neighbors of all nodes,
so does the component. -/
theorem dfsGo_comp_subset (g : Graph) (N : Finset Nat)
    (hN : ∀ n y, y ∈ g.neighbors n → y ∈ N) (seen : Finset Nat)
    (stack : List Nat) :
    (∀ x ∈ stack, x ∈ N) → ∀ x ∈ (dfsGo g seen stack).1, x ∈ N := by
  induction seen, stack using dfsGo.induct g
  case case1 seen => rw [dfsGo_nil]; simp
  case case2 seen source rest hmem ih =>
    rw [dfsGo_cons_mem _ _ _ hmem]
    intro hstack
    exact ih fun x hx => hstack x (List.mem_cons_of_mem _ hx)
  case case3 seen source rest hmem ih =>
    rw [dfsGo_cons_new _ _ _ hmem]
    intro hstack x hx
    rcases List.mem_cons.mp hx with rfl | hx
    · exact hstack x (List.mem_cons_self _ _)
    · refine ih (fun z hz => ?_) x hx
      rcases List.mem_append.mp hz with hz | hz
      · exact hN source z (List.mem_filter.mp (List.mem_reverse.mp hz)).1
      · exact hstack z (List.mem_cons_of_mem _ hz)

/-- Every neighbor of a component node is seen when the DFS finishes. -/
theorem dfsGo_closure (g : Graph) (seen : Finset Nat) (stack : List Nat) :
    ∀ x ∈ (dfsGo g seen stack).1, ∀ y ∈ g.neighbors x,
      y ∈ (dfsGo g seen stack).2 := by
  induction seen, stack using dfsGo.induct g
  case case1 seen => rw [dfsGo_nil]; simp
  case case2 seen source rest hmem ih => rw [dfsGo_cons_mem _ _ _ hmem]; exact ih
  case case3 seen source rest hmem ih =>
    rw [dfsGo_cons_new _ _ _ hmem]
    intro x hx y hy
    rcases List.mem_cons.mp hx with rfl | hx
    · by_cases hys : y ∈ insert x seen
      · exact dfsGo_seen_subset g _ _ hys
      · refine dfsGo_stack_mem g _ _ y (List.mem_append_left _ ?_)
        simp only [List.mem_reverse, List.mem_filter, decide_eq_true_eq]
        exact ⟨hy, hys⟩
    · exact ih x hx y hy

/-- Every component node is reachable from the root if every stack node
is. -/
theorem dfsGo_reach (g : Graph) (r : Nat) (seen : Finset Nat)
    (stack : List Nat) :
    (∀ x ∈ stack, Reach g r x) → ∀ x ∈ (dfsGo g seen stack).1, Reach g r x := by
  induction seen, stack using dfsGo.induct g
  case case1 seen => rw [dfsGo_nil]; simp
  case case2 seen source rest hmem ih =>
    rw [dfsGo_cons_mem _ _ _ hmem]
    intro hstack
    exact ih fun x hx => hstack x (List.mem_cons_of_mem _ hx)
  case case3 seen source rest hmem ih =>
    rw [dfsGo_cons_new _ _ _ hmem]
    intro hstack x hx
    rcases List.mem_cons.mp hx with rfl | hx
    · exact hstack x (List.mem_cons_self _ _)
    · refine ih (fun z hz => ?_) x hx
      rcases List.mem_append.mp hz with hz | hz
      · exact Relation.ReflTransGen.tail (hstack source (List.mem_cons_self _ _))
          (List.mem_filter.mp (List.mem_reverse.mp hz)).1
      · exact hstack z (List.mem_cons_of_mem _ hz)

/-! Facts about the outer loop of the weak-component walker. -/

/-- The final seen set is the initial one plus exactly the emitted nodes. -/
theorem weakGoFull_seen_eq (g : Graph) (roots : List Nat) (seen : Finset Nat) :
    (weakGoFull g roots seen).2
      = seen ∪ (weakGoFull g roots seen).1.flatten.toFinset := by
  induction roots generalizing seen with
  | nil => simp [weakGoFull]
  | cons r rest ih =>
    rw [weakGoFull]
    by_cases hr : r ∈ seen
    · simp only [if_pos hr]
      exact ih seen
    · simp only [if_neg hr, List.flatten_cons, ih, dfsGo_seen_eq]
      ext x
      simp only [Finset.mem_union, List.toFinset_append, List.mem_toFinset]
      tauto

theorem weakGoFull_seen_subset (g : Graph) (roots : List Nat)
    (seen : Finset Nat) : seen ⊆ (weakGoFull g roots seen).2 := by
  rw [weakGoFull_seen_eq]; exact Finset.subset_union_left

/-- No emitted node was seen when the walk started. -/
theorem weakGoFull_flatten_not_seen (g : Graph) (roots : List Nat)
    (seen : Finset Nat) :
    ∀ x ∈ (weakGoFull g roots seen).1.flatten, x ∉ seen := by
  induction roots generalizing seen with
  | nil => simp [weakGoFull]
  | cons r rest ih =>
    rw [weakGoFull]
    by_cases hr : r ∈ seen
    · simp only [if_pos hr]
      exact ih seen
    · simp only [if_neg hr, List.flatten_cons]
      intro x hx
      rcases List.mem_append.mp hx with hx | hx
      · exact dfsGo_comp_not_seen g seen [r] x hx
      · intro hs
        exact ih _ x hx (dfsGo_seen_subset g seen [r] hs)

/-- Emitted nodes are globally distinct: the components are disjoint and
each is duplicate-free. -/
theorem weakGoFull_flatten_nodup (g : Graph) (roots : List Nat)
    (seen : Finset Nat) : (weakGoFull g roots seen).1.flatten.Nodup := by
  induction roots generalizing seen with
  | nil => simp [weakGoFull]
  | cons r rest ih =>
    rw [weakGoFull]
    by_cases hr : r ∈ seen
    · simp only [if_pos hr]
      exact ih seen
    · simp only [if_neg hr, List.flatten_cons]
      refine List.Nodup.append (dfsGo_comp_nodup g seen [r]) (ih _) ?_
      intro x hx hx2
      have hseen : x ∈ (dfsGo g seen [r]).2 := by
        rw [dfsGo_seen_eq]
        exact Finset.mem_union_right _ (List.mem_toFinset.mpr hx)
      exact weakGoFull_flatten_not_seen g rest _ x hx2 hseen

/-- Every root node is seen after the walk. -/
theorem weakGoFull_roots_seen (g : Graph) (roots : List Nat)
    (seen : Finset Nat) : ∀ r ∈ roots, r ∈ (weakGoFull g roots seen).2 := by
  induction roots generalizing seen with
  | nil => simp
  | cons r rest ih =>
    rw [weakGoFull]
    by_cases hr : r ∈ seen
    · simp only [if_pos hr]
      intro x hx
      rcases List.mem_cons.mp hx with rfl | hx
      · exact weakGoFull_seen_subset g rest seen hr
      · exact ih seen x hx
    · simp only [if_neg hr]
      intro x hx
      rcases List.mem_cons.mp hx with rfl | hx
      · exact weakGoFull_seen_subset g rest _
          (dfsGo_stack_mem g seen [x] x (List.mem_cons_self _ _))
      · exact ih _ x hx

/-- Emitted nodes lie in any set containing the roots and closed under
taking neighbors of arbitrary nodes. -/
theorem weakGoFull_comp_subset (g : Graph) (N : Finset Nat)
    (hN : ∀ n y, y ∈ g.neighbors n → y ∈ N) (roots : List Nat)
    (seen : Finset Nat) (hroots : ∀ r ∈ roots, r ∈ N) :
    ∀ C ∈ (weakGoFull g roots seen).1, ∀ x ∈ C, x ∈ N := by
  induction roots generalizing seen with
  | nil => simp [weakGoFull]
  | cons r rest ih =>
    rw [weakGoFull]
    by_cases hr : r ∈ seen
    · simp only [if_pos hr]
      exact ih seen fun x hx => hroots x (List.mem_cons_of_mem _ hx)
    · simp only [if_neg hr]
      intro C hC
      rcases List.mem_cons.mp hC with rfl | hC
      · exact dfsGo_comp_subset g N hN seen [r]
          (by simpa using hroots r (List.mem_cons_self _ _))
      · exact ih _ (fun x hx => hroots x (List.mem_cons_of_mem _ hx)) C hC

/-- Every emitted component has a distinguished member from which all its
nodes are reachable. -/
theorem weakGoFull_comp_reach (g : Graph) (roots : List Nat)
    (seen : Finset Nat) :
    ∀ C ∈ (weakGoFull g roots seen).1,
      ∃ r, r ∈ C ∧ ∀ x ∈ C, Reach g r x := by
  induction roots generalizing seen with
  | nil => simp [weakGoFull]
  | cons r rest ih =>
    rw [weakGoFull]
    by_cases hr : r ∈ seen
    · simp only [if_pos hr]
      exact ih seen
    · simp only [if_neg hr]
      intro C hC
      rcases List.mem_cons.mp hC with rfl | hC
      · refine ⟨r, ?_, ?_⟩
        · rw [dfsGo_cons_new _ _ _ hr]
          exact List.mem_cons_self _ _
        · refine dfsGo_reach g r seen [r] (fun x hx => ?_)
          rw [List.mem_singleton] at hx
          subst hx
          exact Relation.ReflTransGen.refl
      · exact ih _ C hC

/-- When the walk starts from a neighbor-closed seen set (in particular
the empty set), every emitted component is closed under neighbors. -/
theorem weakGoFull_closed (g : Graph) (roots : List Nat) (seen : Finset Nat)
    (Hs : ∀ y ∈ seen, ∀ z ∈ g.neighbors y, z ∈ seen) :
    ∀ C ∈ (weakGoFull g roots seen).1, ∀ x ∈ C, ∀ y ∈ g.neighbors x,
      y ∈ C := by
  induction roots generalizing seen with
  | nil => simp [weakGoFull]
  | cons r rest ih =>
    rw [weakGoFull]
    by_cases hr : r ∈ seen
    · simp only [if_pos hr]
      exact ih seen Hs
    · simp only [if_neg hr]
      intro C hC
      rcases List.mem_cons.mp hC with rfl | hC
      · intro x hx y hy
        have hy2 : y ∈ (dfsGo g seen [r]).2 := dfsGo_closure g seen [r] x hx y hy
        rw [dfsGo_seen_eq] at hy2
        rcases Finset.mem_union.mp hy2 with hy2 | hy2
        · exfalso
          have hxy : x ∈ g.neighbors y := adj_symm g hy
          have hxs : x ∈ seen := Hs y hy2 x hxy
          exact dfsGo_comp_not_seen g seen [r] x hx hxs
        · exact List.mem_toFinset.mp hy2
      · refine ih _ ?_ C hC
        intro y hy z hz
        have hy2 := hy
        rw [dfsGo_seen_eq] at hy2
        rcases Finset.mem_union.mp hy2 with hy3 | hy3
        · exact dfsGo_seen_subset g seen [r] (Hs y hy3 z hz)
        · exact dfsGo_closure g seen [r] y (List.mem_toFinset.mp hy3) z hz

/-- The null-graph guard in `forEachConnectedComponent` is redundant:
a graph of order zero has no nodes to walk. -/
theorem forEach_eq_weakGoFull (g : Graph) :
    forEachConnectedComponent g = (weakGoFull g g.nodeIds ∅).1 := by
  unfold forEachConnectedComponent
  split
  · have : g.nodeIds = [] := by
      have : g.nodes = [] := List.length_eq_zero.mp ‹g.order = 0›
      simp [Graph.nodeIds, this]
    rw [this, weakGoFull]
  · rfl

theorem weakGoFull_comp_nodup (g : Graph) (roots : List Nat)
    (seen : Finset Nat) :
    ∀ C ∈ (weakGoFull g roots seen).1, C.Nodup := by
  induction roots generalizing seen with
  | nil => simp [weakGoFull]
  | cons r rest ih =>
    rw [weakGoFull]
    by_cases hr : r ∈ seen
    · simp only [if_pos hr]
      exact ih seen
    · simp only [if_neg hr]
      intro C hC
      rcases List.mem_cons.mp hC with rfl | hC
      · exact dfsGo_comp_nodup g seen [r]
      · exact ih _ C hC

/-- The partition property of the weak-component walker: the emitted
components, concatenated, are a permutation of the node list. -/
theorem connectedComponents_flatten_perm (g : Graph) (hWF : g.WF) :
    (connectedComponents g).flatten.Perm g.nodeIds := by
  rw [connectedComponents, forEach_eq_weakGoFull]
  apply List.perm_of_nodup_nodup_toFinset_eq
    (weakGoFull_flatten_nodup g g.nodeIds ∅) hWF.1
  ext x
  simp only [List.mem_toFinset]
  constructor
  · intro hx
    obtain ⟨C, hC, hxC⟩ := List.mem_flatten.mp hx
    have := weakGoFull_comp_subset g g.nodesF
      (fun n y hy => neighbors_mem_nodesF g hWF hy) g.nodeIds ∅
      (fun r hr => List.mem_toFinset.mpr hr) C hC x hxC
    exact List.mem_toFinset.mp this
  · intro hx
    have := weakGoFull_roots_seen g g.nodeIds ∅ x hx
    rw [weakGoFull_seen_eq] at this
    rcases Finset.mem_union.mp this with h | h
    · exact absurd h (Finset.not_mem_empty x)
    · exact List.mem_toFinset.mp h

/-! The size-only variant computes exactly the component lengths. -/

theorem dfsCount_eq (g : Graph) (seen : Finset Nat) (stack : List Nat) :
    dfsCount g seen stack
      = ((dfsGo g seen stack).1.length, (dfsGo g seen stack).2) := by
  induction seen, stack using dfsCount.induct g
  case case1 seen => rw [dfsCount, dfsGo]; rfl
  case case2 seen source rest hmem ih =>
    rw [dfsCount, dfsGo]
    simp only [if_pos hmem]
    exact ih
  case case3 seen source rest hmem ih =>
    rw [dfsCount, dfsGo]
    simp only [if_neg hmem, ih, List.length_cons]

theorem orderGoFull_eq (g : Graph) (roots : List Nat) (seen : Finset Nat) :
    orderGoFull g roots seen
      = ((weakGoFull g roots seen).1.map List.length,
          (weakGoFull g roots seen).2) := by
  induction roots generalizing seen with
  | nil => rw [orderGoFull, weakGoFull]; rfl
  | cons r rest ih =>
    rw [orderGoFull, weakGoFull]
    by_cases hr : r ∈ seen
    · simp only [if_pos hr]
      exact ih seen
    · simp only [if_neg hr, dfsCount_eq, ih, List.map_cons]

/-! The champion fold of `largestConnectedComponent`. -/

theorem foldl_pickLarger_le (b : List Nat) (l : List (List Nat)) :
    b.length ≤ (List.foldl pickLarger b l).length := by
  induction l generalizing b with
  | nil => simp
  | cons c l ih =>
    rw [List.foldl_cons]
    refine le_trans ?_ (ih (pickLarger b c))
    unfold pickLarger
    split
    · omega
    · exact le_refl _

theorem foldl_pickLarger_mem_le (b : List Nat) (l : List (List Nat)) :
    ∀ c ∈ l, c.length ≤ (List.foldl pickLarger b l).length := by
  induction l generalizing b with
  | nil => simp
  | cons c l ih =>
    intro d hd
    rw [List.foldl_cons]
    rcases List.mem_cons.mp hd with rfl | hd
    · refine le_trans ?_ (foldl_pickLarger_le (pickLarger b d) l)
      unfold pickLarger
      split
      · exact le_refl _
      · omega
    · exact ih (pickLarger b c) d hd

theorem foldl_pickLarger_stable (b : List Nat) (l : List (List Nat))
    (h : ∀ c ∈ l, c.length ≤ b.length) : List.foldl pickLarger b l = b := by
  induction l with
  | nil => rfl
  | cons c l ih =>
    rw [List.foldl_cons]
    have hc : pickLarger b c = b := by
      unfold pickLarger
      rw [if_neg]
      have := h c (List.mem_cons_self _ _)
      omega
    rw [hc]
    exact ih fun d hd => h d (List.mem_cons_of_mem _ hd)

/-- The champion fold either keeps the seed (when nothing beats it) or
returns the first entry that attains the running maximum: every earlier
entry is strictly smaller. -/
theorem foldl_pickLarger_first (b : List Nat) (l : List (List Nat)) :
    (List.foldl pickLarger b l = b ∧ ∀ c ∈ l, c.length ≤ b.length) ∨
    (∃ i : Nat, l[i]? = some (List.foldl pickLarger b l) ∧
      b.length < (List.foldl pickLarger b l).length ∧
      ∀ j, j < i → ∀ c : List Nat, l[j]? = some c →
        c.length < (List.foldl pickLarger b l).length) := by
  induction l generalizing b with
  | nil => exact Or.inl ⟨rfl, by simp⟩
  | cons c l ih =>
    rw [List.foldl_cons]
    by_cases hbc : b.length < c.length
    · have hpick : pickLarger b c = c := by unfold pickLarger; rw [if_pos hbc]
      rw [hpick]
      rcases ih c with ⟨heq, hle⟩ | ⟨i, hi, hlt, hfirst⟩
      · refine Or.inr ⟨0, ?_, ?_, ?_⟩
        · simp [heq]
        · rw [heq]; exact hbc
        · intro j hj; omega
      · refine Or.inr ⟨i + 1, by simpa using hi, lt_trans hbc hlt, ?_⟩
        intro j hj d hd
        match j with
        | 0 =>
          simp only [List.getElem?_cons_zero, Option.some.injEq] at hd
          subst hd
          exact hlt
        | j' + 1 =>
          exact hfirst j' (by omega) d (by simpa using hd)
    · have hpick : pickLarger b c = b := by unfold pickLarger; rw [if_neg hbc]
      rw [hpick]
      rcases ih b with ⟨heq, hle⟩ | ⟨i, hi, hlt, hfirst⟩
      · refine Or.inl ⟨heq, ?_⟩
        intro d hd
        rcases List.mem_cons.mp hd with rfl | hd
        · omega
        · exact hle d hd
      · refine Or.inr ⟨i + 1, by simpa using hi, hlt, ?_⟩
        intro j hj d hd
        match j with
        | 0 =>
          simp only [List.getElem?_cons_zero, Option.some.injEq] at hd
          subst hd
          omega
        | j' + 1 =>
          exact hfirst j' (by omega) d (by simpa using hd)

/-- Node count equals the cardinality of the node-key set for a
well-formed graph. -/
theorem order_eq_card (g : Graph) (hWF : g.WF) : g.order = g.nodesF.card := by
  rw [Graph.nodesF, List.toFinset_card_of_nodup hWF.1]
  simp [Graph.nodeIds, Graph.order]

/-- The early-exit loop of `largestConnectedComponent` computes the same
champion as folding over all components of a full traversal. -/
theorem largestGo_eq_foldl (g : Graph) (hWF : g.WF) (roots : List Nat)
    (seen : Finset Nat) (best : List Nat)
    (hroots : ∀ r ∈ roots, r ∈ g.nodesF) (hseen : seen ⊆ g.nodesF) :
    largestGo g roots seen best
      = List.foldl pickLarger best (weakGoFull g roots seen).1 := by
  induction roots generalizing seen best with
  | nil => rw [largestGo, weakGoFull]; rfl
  | cons r rest ih =>
    rw [largestGo, weakGoFull]
    by_cases hr : r ∈ seen
    · simp only [if_pos hr]
      exact ih seen best (fun x hx => hroots x (List.mem_cons_of_mem _ hx))
        hseen
    · simp only [if_neg hr, List.foldl_cons]
      have hstack : ∀ x ∈ [r], x ∈ g.nodesF := by
        simpa using hroots r (List.mem_cons_self _ _)
      have hcompN : ∀ x ∈ (dfsGo g seen [r]).1, x ∈ g.nodesF :=
        dfsGo_comp_subset g g.nodesF
          (fun n y hy => neighbors_mem_nodesF g hWF hy) seen [r] hstack
      have hseen2 : (dfsGo g seen [r]).2 ⊆ g.nodesF := by
        rw [dfsGo_seen_eq]
        intro x hx
        rcases Finset.mem_union.mp hx with hx | hx
        · exact hseen hx
        · exact hcompN x (List.mem_toFinset.mp hx)
      split
      · next hexit =>
        rw [eq_comm]
        apply foldl_pickLarger_stable
        intro C hC
        have hCnodup := weakGoFull_comp_nodup g rest _ C hC
        have hCsub : C.toFinset ⊆ g.nodesF \ (dfsGo g seen [r]).2 := by
          intro x hx
          rw [List.mem_toFinset] at hx
          refine Finset.mem_sdiff.mpr ⟨?_, ?_⟩
          · exact weakGoFull_comp_subset g g.nodesF
              (fun n y hy => neighbors_mem_nodesF g hWF hy) rest _
              (fun z hz => hroots z (List.mem_cons_of_mem _ hz)) C hC x hx
          · intro hx2
            exact weakGoFull_flatten_not_seen g rest _ x
              (List.mem_flatten.mpr ⟨C, hC, hx⟩) hx2
        have hlen : C.length ≤ g.order - (dfsGo g seen [r]).2.card := by
          calc C.length = C.toFinset.card :=
                (List.toFinset_card_of_nodup hCnodup).symm
            _ ≤ (g.nodesF \ (dfsGo g seen [r]).2).card :=
                Finset.card_le_card hCsub
            _ = g.nodesF.card - (dfsGo g seen [r]).2.card :=
                Finset.card_sdiff hseen2
            _ = g.order - (dfsGo g seen [r]).2.card := by
                rw [order_eq_card g hWF]
        omega
      · next hexit =>
        exact ih _ _ (fun x hx => hroots x (List.mem_cons_of_mem _ hx)) hseen2

/-- The early-exit champion equals the full-traversal champion. -/
theorem largestConnectedComponent_eq_foldl (g : Graph) (hWF : g.WF) :
    largestConnectedComponent g
      = List.foldl pickLarger [] (connectedComponents g) := by
  rw [largestConnectedComponent, connectedComponents, forEach_eq_weakGoFull]
  split
  · next h0 =>
    have : g.nodeIds = [] := by
      have : g.nodes = [] := List.length_eq_zero.mp h0
      simp [Graph.nodeIds, this]
    rw [this, weakGoFull]
    rfl
  · exact largestGo_eq_foldl g hWF g.nodeIds ∅ []
      (fun r hr => List.mem_toFinset.mpr hr) (Finset.empty_subset _)

/-! Helpers for the subgraph and crop operations. -/

theorem weakGoFull_comp_ne_nil (g : Graph) (roots : List Nat)
    (seen : Finset Nat) : ∀ C ∈ (weakGoFull g roots seen).1, C ≠ [] := by
  intro C hC
  obtain ⟨r, hr, _⟩ := weakGoFull_comp_reach g roots seen C hC
  exact fun hnil => by simp [hnil] at hr

/-- Every component of a full run is closed under taking neighbors. -/
theorem connectedComponents_closed (g : Graph) :
    ∀ C ∈ connectedComponents g, ∀ x ∈ C, ∀ y ∈ g.neighbors x, y ∈ C := by
  rw [connectedComponents, forEach_eq_weakGoFull]
  exact weakGoFull_closed g g.nodeIds ∅ (by simp)

/-- On a graph with at least one node, the champion is one of the
emitted components. -/
theorem largest_mem_components (g : Graph) (hWF : g.WF)
    (h0 : g.nodes ≠ []) :
    largestConnectedComponent g ∈ connectedComponents g := by
  rw [largestConnectedComponent_eq_foldl g hWF]
  rcases foldl_pickLarger_first [] (connectedComponents g) with
    ⟨heq, hle⟩ | ⟨i, hi, _, _⟩
  · exfalso
    have hroots : g.nodeIds ≠ [] := by
      intro h
      exact h0 (by simpa [Graph.nodeIds] using congrArg List.length h)
    obtain ⟨r, rest, hsplit⟩ := List.exists_cons_of_ne_nil hroots
    have hcc : connectedComponents g = (weakGoFull g (r :: rest) ∅).1 := by
      rw [connectedComponents, forEach_eq_weakGoFull, hsplit]
    have hne : (weakGoFull g (r :: rest) ∅).1 ≠ [] := by
      rw [weakGoFull]
      simp
    obtain ⟨C, cs, hcs⟩ := List.exists_cons_of_ne_nil hne
    have hCmem : C ∈ connectedComponents g := by
      rw [hcc, hcs]; exact List.mem_cons_self _ _
    have hCne : C ≠ [] := by
      refine weakGoFull_comp_ne_nil g (r :: rest) ∅ C ?_
      rw [hcs]; exact List.mem_cons_self _ _
    have := hle C hCmem
    simp only [List.length_nil, Nat.le_zero, List.length_eq_zero] at this
    exact hCne this
  · exact List.getElem?_mem hi

theorem lookup_map_self (l : List Nat) (f : Nat → Nat) (k : Nat)
    (hk : k ∈ l) : (l.map (fun x => (x, f x))).lookup k = some (f k) := by
  induction l with
  | nil => cases hk
  | cons x l ih =>
    rw [List.map_cons, List.lookup]
    by_cases hkx : k = x
    · subst hkx
      simp
    · have : (k == x) = false := by simpa using hkx
      rw [this]
      refine ih ?_
      rcases List.mem_cons.mp hk with h | h
      · exact absurd h hkx
      · exact h

theorem other_eq_some (e : Edge) {b c : Nat} (h : e.other b = some c) :
    (e.source = b ∧ e.target = c) ∨ (e.target = b ∧ e.source = c) := by
  rw [Edge.other] at h
  split at h
  · exact Or.inl ⟨‹_›, by injection h⟩
  · split at h
    · exact Or.inr ⟨‹_›, by injection h⟩
    · cases h

theorem self_mem_neighbors_of_other (g : Graph) {e : Edge} {b c : Nat}
    (he : e ∈ g.edges) (h : e.other b = some c) : c ∈ g.neighbors b := by
  rw [Graph.neighbors, List.mem_filterMap]
  exact ⟨e, he, h⟩

/-- Anything reachable from a member of a neighbor-closed list stays in
the list. -/
theorem reach_mem_closed (g : Graph) (C : List Nat)
    (hclosed : ∀ x ∈ C, ∀ y ∈ g.neighbors x, y ∈ C) {r x : Nat}
    (hr : r ∈ C) (hx : Reach g r x) : x ∈ C := by
  induction hx with
  | refl => exact hr
  | tail _ hstep ih => exact hclosed _ ih _ hstep

/-- A reachability path out of a neighbor-closed list survives in any
graph that keeps the edges internal to the list. -/
theorem reach_transfer (g g2 : Graph) (C : List Nat)
    (hclosed : ∀ x ∈ C, ∀ y ∈ g.neighbors x, y ∈ C)
    (hedge : ∀ e ∈ g.edges, e.source ∈ C → e.target ∈ C → e ∈ g2.edges)
    {r x : Nat} (hr : r ∈ C) (hx : Reach g r x) : Reach g2 r x := by
  induction hx with
  | refl => exact Relation.ReflTransGen.refl
  | tail hab hstep ih =>
    rename_i b c
    have hbC : b ∈ C := reach_mem_closed g C hclosed hr hab
    have hcC : c ∈ C := hclosed b hbC c hstep
    obtain ⟨e, he, hoth⟩ := List.mem_filterMap.mp hstep
    have hends : e.source ∈ C ∧ e.target ∈ C := by
      rcases other_eq_some e hoth with ⟨h1, h2⟩ | ⟨h1, h2⟩
      · exact ⟨h1 ▸ hbC, h2 ▸ hcC⟩
      · exact ⟨h2 ▸ hcC, h1 ▸ hbC⟩
    exact Relation.ReflTransGen.tail ih
      (self_mem_neighbors_of_other g2 (hedge e he hends.1 hends.2) hoth)

/-- If every root is already seen, the walk emits nothing. -/
theorem weakGoFull_all_seen (g : Graph) (roots : List Nat)
    (seen : Finset Nat) (h : ∀ r ∈ roots, r ∈ seen) :
    (weakGoFull g roots seen).1 = [] := by
  induction roots with
  | nil => rw [weakGoFull]
  | cons r rest ih =>
    rw [weakGoFull]
    rw [if_pos (h r (List.mem_cons_self _ _))]
    exact ih fun x hx => h x (List.mem_cons_of_mem _ hx)

/-- Folding `dropNode` over a key list keeps exactly the nodes that are
in the kept set or were never candidates, and the edges whose endpoints
all survive. -/
theorem dropFold_eq (C : Finset Nat) (ks : List Nat) (h : Graph) :
    ks.foldl (fun h2 k => if k ∈ C then h2 else h2.dropNode k) h =
      { nodes := h.nodes.filter (fun p => decide (p.1 ∈ C ∨ p.1 ∉ ks)),
        edges := h.edges.filter (fun e =>
          decide ((e.source ∈ C ∨ e.source ∉ ks) ∧
            (e.target ∈ C ∨ e.target ∉ ks))),
        type := h.type } := by
  induction ks generalizing h with
  | nil =>
    rw [List.foldl_nil]
    cases h with
    | mk n e t =>
      simp only [Graph.mk.injEq]
      refine ⟨?_, ?_, trivial⟩
      · refine (List.filter_eq_self.mpr ?_).symm
        intro a _
        simp
      · refine (List.filter_eq_self.mpr ?_).symm
        intro a _
        simp
  | cons k ks ih =>
    rw [List.foldl_cons]
    by_cases hk : k ∈ C
    · rw [if_pos hk, ih]
      simp only [Graph.mk.injEq]
      refine ⟨?_, ?_, trivial⟩
      · apply List.filter_congr
        intro p _
        rw [decide_eq_decide]
        constructor
        · rintro (h1 | h1)
          · exact Or.inl h1
          · by_cases hpk : p.1 = k
            · exact Or.inl (hpk ▸ hk)
            · exact Or.inr (by simp [hpk, h1])
        · rintro (h1 | h1)
          · exact Or.inl h1
          · exact Or.inr fun hm => h1 (List.mem_cons_of_mem _ hm)
      · apply List.filter_congr
        intro e _
        rw [decide_eq_decide]
        have hone : ∀ x : Nat, (x ∈ C ∨ x ∉ ks) ↔ (x ∈ C ∨ x ∉ k :: ks) := by
          intro x
          constructor
          · rintro (h1 | h1)
            · exact Or.inl h1
            · by_cases hpk : x = k
              · exact Or.inl (hpk ▸ hk)
              · exact Or.inr (by simp [hpk, h1])
          · rintro (h1 | h1)
            · exact Or.inl h1
            · exact Or.inr fun hm => h1 (List.mem_cons_of_mem _ hm)
        rw [hone, hone]
    · rw [if_neg hk, ih]
      simp only [Graph.dropNode, Graph.mk.injEq]
      refine ⟨?_, ?_, trivial⟩
      · rw [List.filter_filter]
        apply List.filter_congr
        intro p _
        apply Bool.eq_iff_iff.mpr
        simp only [Bool.and_eq_true, decide_eq_true_eq]
        constructor
        · rintro ⟨h1 | h1, h2⟩
          · exact Or.inl h1
          · exact Or.inr (by simp [h2, h1])
        · rintro (h1 | h1)
          · refine ⟨Or.inl h1, fun hpk => hk (hpk ▸ h1)⟩
          · rw [List.mem_cons] at h1
            push_neg at h1
            exact ⟨Or.inr h1.2, h1.1⟩
      · rw [List.filter_filter]
        apply List.filter_congr
        intro e _
        apply Bool.eq_iff_iff.mpr
        simp only [Bool.and_eq_true, decide_eq_true_eq]
        have hone : ∀ x : Nat, ((x ∈ C ∨ x ∉ ks) ∧ x ≠ k)
            ↔ (x ∈ C ∨ x ∉ k :: ks) := by
          intro x
          constructor
          · rintro ⟨h1 | h1, h2⟩
            · exact Or.inl h1
            · exact Or.inr (by simp [h2, h1])
          · rintro (h1 | h1)
            · exact ⟨Or.inl h1, fun hpk => hk (hpk ▸ h1)⟩
            · rw [List.mem_cons] at h1
              push_neg at h1
              exact ⟨Or.inr h1.2, h1.1⟩
        constructor
        · rintro ⟨⟨hs, ht⟩, hnk⟩
          exact ⟨(hone _).mp ⟨hs, hnk.1⟩, (hone _).mp ⟨ht, hnk.2⟩⟩
        · rintro ⟨hs, ht⟩
          obtain ⟨hs1, hs2⟩ := (hone _).mpr hs
          obtain ⟨ht1, ht2⟩ := (hone _).mpr ht
          exact ⟨⟨hs1, ht1⟩, hs2, ht2⟩

/-- For a well-formed graph the crop keeps exactly the nodes of the
largest component (with their attributes) and the edges whose two
endpoints lie in it. -/
theorem crop_eq (g : Graph) (hWF : g.WF) :
    cropToLargestConnectedComponent g =
      { nodes := g.nodes.filter (fun p =>
          decide (p.1 ∈ (largestConnectedComponent g).toFinset)),
        edges := g.edges.filter (fun e =>
          decide (e.source ∈ (largestConnectedComponent g).toFinset ∧
            e.target ∈ (largestConnectedComponent g).toFinset)),
        type := g.type } := by
  rw [cropToLargestConnectedComponent, dropFold_eq]
  simp only [Graph.mk.injEq]
  refine ⟨?_, ?_, trivial⟩
  · apply List.filter_congr
    intro p hp
    rw [decide_eq_decide]
    have hmem : p.1 ∈ g.nodeIds := by
      rw [Graph.nodeIds]
      exact List.mem_map_of_mem _ hp
    constructor
    · rintro (h1 | h1)
      · exact h1
      · exact absurd hmem h1
    · exact Or.inl
  · apply List.filter_congr
    intro e he
    rw [decide_eq_decide]
    have hs : e.source ∈ g.nodeIds := hWF.2.1 e he
    have ht : e.target ∈ g.nodeIds := hWF.2.2 e he
    constructor
    · rintro ⟨h1 | h1, h2 | h2⟩
      · exact ⟨h1, h2⟩
      · exact absurd ht h2
      · exact absurd hs h1
      · exact absurd hs h1
    · rintro ⟨h1, h2⟩
      exact ⟨Or.inl h1, Or.inl h2⟩

/-- Mapping first components commutes with a filter that only inspects
the first component. -/
theorem map_fst_filter_mem (l : List (Nat × Nat)) (C : Finset Nat) :
    (l.filter (fun p => decide (p.1 ∈ C))).map Prod.fst
      = (l.map Prod.fst).filter (fun k => decide (k ∈ C)) := by
  induction l with
  | nil => rfl
  | cons p l ih =>
    rw [List.map_cons]
    by_cases hp : p.1 ∈ C
    · rw [List.filter_cons_of_pos (by simpa using hp),
        List.filter_cons_of_pos (by simpa using hp), List.map_cons, ih]
    · rw [List.filter_cons_of_neg (by simpa using hp),
        List.filter_cons_of_neg (by simpa using hp), ih]

theorem largest_ne_nil (g : Graph) (hWF : g.WF) (h0 : g.nodes ≠ []) :
    largestConnectedComponent g ≠ [] := by
  have hmem := largest_mem_components g hWF h0
  rw [connectedComponents, forEach_eq_weakGoFull] at hmem
  exact weakGoFull_comp_ne_nil g g.nodeIds ∅ _ hmem

theorem largest_subset_nodeIds (g : Graph) (hWF : g.WF) :
    ∀ x ∈ largestConnectedComponent g, x ∈ g.nodeIds := by
  by_cases h0 : g.nodes = []
  · have : g.order = 0 := by simp [Graph.order, h0]
    rw [largestConnectedComponent, if_pos this]
    simp
  · have hmem := largest_mem_components g hWF h0
    rw [connectedComponents, forEach_eq_weakGoFull] at hmem
    intro x hx
    have := weakGoFull_comp_subset g g.nodesF
      (fun n y hy => neighbors_mem_nodesF g hWF hy) g.nodeIds ∅
      (fun r hr => List.mem_toFinset.mpr hr) _ hmem x hx
    exact List.mem_toFinset.mp this

theorem largest_nodup (g : Graph) (hWF : g.WF) :
    (largestConnectedComponent g).Nodup := by
  by_cases h0 : g.nodes = []
  · have : g.order = 0 := by simp [Graph.order, h0]
    rw [largestConnectedComponent, if_pos this]
    exact List.nodup_nil
  · have hmem := largest_mem_components g hWF h0
    rw [connectedComponents, forEach_eq_weakGoFull] at hmem
    exact weakGoFull_comp_nodup g g.nodeIds ∅ _ hmem

theorem largest_closed (g : Graph) (hWF : g.WF) :
    ∀ x ∈ largestConnectedComponent g, ∀ y ∈ g.neighbors x,
      y ∈ largestConnectedComponent g := by
  by_cases h0 : g.nodes = []
  · have : g.order = 0 := by simp [Graph.order, h0]
    rw [largestConnectedComponent, if_pos this]
    simp
  · exact connectedComponents_closed g _ (largest_mem_components g hWF h0)

theorem largest_mutual_reach (g : Graph) (hWF : g.WF) (h0 : g.nodes ≠ []) :
    ∀ x ∈ largestConnectedComponent g, ∀ y ∈ largestConnectedComponent g,
      Reach g x y := by
  have hmem := largest_mem_components g hWF h0
  rw [connectedComponents, forEach_eq_weakGoFull] at hmem
  obtain ⟨r, hr, hreach⟩ := weakGoFull_comp_reach g g.nodeIds ∅ _ hmem
  intro x hx y hy
  exact Relation.ReflTransGen.trans (reach_symm g (hreach x hx)) (hreach y hy)

theorem crop_nodeIds (g : Graph) (hWF : g.WF) :
    (cropToLargestConnectedComponent g).nodeIds
      = g.nodeIds.filter
          (fun k => decide (k ∈ (largestConnectedComponent g).toFinset)) := by
  rw [crop_eq g hWF]
  rw [Graph.nodeIds, Graph.nodeIds]
  exact map_fst_filter_mem g.nodes (largestConnectedComponent g).toFinset

theorem crop_WF (g : Graph) (hWF : g.WF) :
    (cropToLargestConnectedComponent g).WF := by
  refine ⟨?_, ?_, ?_⟩
  · rw [crop_nodeIds g hWF]
    exact hWF.1.filter _
  · intro e he
    rw [crop_eq g hWF] at he
    simp only [List.mem_filter, decide_eq_true_eq] at he
    rw [crop_nodeIds g hWF, List.mem_filter]
    exact ⟨hWF.2.1 e he.1, by simpa using he.2.1⟩
  · intro e he
    rw [crop_eq g hWF] at he
    simp only [List.mem_filter, decide_eq_true_eq] at he
    rw [crop_nodeIds g hWF, List.mem_filter]
    exact ⟨hWF.2.2 e he.1, by simpa using he.2.2⟩

theorem crop_nodesF (g : Graph) (hWF : g.WF) :
    (cropToLargestConnectedComponent g).nodesF
      = (largestConnectedComponent g).toFinset := by
  ext x
  rw [Graph.nodesF, List.mem_toFinset, crop_nodeIds g hWF, List.mem_filter]
  simp only [decide_eq_true_eq, List.mem_toFinset]
  constructor
  · exact fun h => h.2
  · exact fun h => ⟨largest_subset_nodeIds g hWF x h, h⟩

/-- Internal edges of the largest component survive the crop. -/
theorem crop_keeps_edges (g : Graph) (hWF : g.WF) :
    ∀ e ∈ g.edges, e.source ∈ largestConnectedComponent g →
      e.target ∈ largestConnectedComponent g →
      e ∈ (cropToLargestConnectedComponent g).edges := by
  intro e he hs ht
  rw [crop_eq g hWF]
  simp only [List.mem_filter, decide_eq_true_eq, List.mem_toFinset]
  exact ⟨he, hs, ht⟩

/-- Re-running the weak walker on the cropped graph yields exactly one
component, a permutation of the remaining nodes. -/
theorem crop_one_component (g : Graph) (hWF : g.WF) (h0 : g.nodes ≠ []) :
    ∃ c, forEachConnectedComponent (cropToLargestConnectedComponent g) = [c]
      ∧ c.Perm (cropToLargestConnectedComponent g).nodeIds := by
  set g2 := cropToLargestConnectedComponent g with hg2
  set L := largestConnectedComponent g with hL
  have hWF2 : g2.WF := crop_WF g hWF
  have hmemIds : ∀ x, x ∈ g2.nodeIds ↔ (x ∈ g.nodeIds ∧ x ∈ L) := by
    intro x
    rw [hg2, crop_nodeIds g hWF, List.mem_filter]
    simp [← hL]
  have hLne : L ≠ [] := largest_ne_nil g hWF h0
  obtain ⟨x0, hx0⟩ := List.exists_mem_of_ne_nil L hLne
  have hx0ids : x0 ∈ g2.nodeIds :=
    (hmemIds x0).mpr ⟨largest_subset_nodeIds g hWF x0 hx0, hx0⟩
  have hidsne : g2.nodeIds ≠ [] := List.ne_nil_of_mem hx0ids
  obtain ⟨r2, rest2, hsplit⟩ := List.exists_cons_of_ne_nil hidsne
  have hr2 : r2 ∈ g2.nodeIds := by rw [hsplit]; exact List.mem_cons_self _ _
  have hr2L : r2 ∈ L := ((hmemIds r2).mp hr2).2
  -- the component grown from the first remaining node
  set c := (dfsGo g2 ∅ [r2]).1 with hc
  have hr2c : r2 ∈ c := by
    rw [hc, dfsGo_cons_new _ _ _ (Finset.not_mem_empty r2)]
    exact List.mem_cons_self _ _
  have hcclosed : ∀ x ∈ c, ∀ y ∈ g2.neighbors x, y ∈ c := by
    intro x hx y hy
    have := dfsGo_closure g2 ∅ [r2] x hx y hy
    rw [dfsGo_seen_eq] at this
    rcases Finset.mem_union.mp this with h | h
    · exact absurd h (Finset.not_mem_empty y)
    · exact List.mem_toFinset.mp h
  have hcsub : ∀ x ∈ c, x ∈ g2.nodeIds := by
    intro x hx
    have := dfsGo_comp_subset g2 g2.nodesF
      (fun n y hy => neighbors_mem_nodesF g2 hWF2 hy) ∅ [r2]
      (fun z hz => by
        rw [List.mem_singleton] at hz
        subst hz
        exact List.mem_toFinset.mpr hr2) x hx
    exact List.mem_toFinset.mp this
  have hallc : ∀ x ∈ g2.nodeIds, x ∈ c := by
    intro x hx
    have hxL : x ∈ L := ((hmemIds x).mp hx).2
    have hreachg : Reach g r2 x := largest_mutual_reach g hWF h0 r2 hr2L x hxL
    have hreach2 : Reach g2 r2 x :=
      reach_transfer g g2 L (largest_closed g hWF)
        (fun e he hs ht => crop_keeps_edges g hWF e he hs ht) hr2L hreachg
    exact reach_mem_closed g2 c hcclosed hr2c hreach2
  refine ⟨c, ?_, ?_⟩
  · rw [forEach_eq_weakGoFull, hsplit, weakGoFull,
      if_neg (Finset.not_mem_empty r2)]
    have hrest : (weakGoFull g2 rest2 (dfsGo g2 ∅ [r2]).2).1 = [] := by
      apply weakGoFull_all_seen
      intro x hx
      rw [dfsGo_seen_eq]
      refine Finset.mem_union_right _ (List.mem_toFinset.mpr ?_)
      exact hallc x (by rw [hsplit]; exact List.mem_cons_of_mem _ hx)
    simp only [hrest]
  · apply List.perm_of_nodup_nodup_toFinset_eq (dfsGo_comp_nodup g2 ∅ [r2])
      hWF2.1
    ext x
    rw [List.mem_toFinset, List.mem_toFinset]
    exact ⟨fun h => hcsub x h, fun h => hallc x h⟩

/-! Threaded variants witnessing the frame property. Every
graph-interface call the four read-only traversal operations perform is
embedded as a state-passing primitive returning a result together with
the graph after the call; the traversals thread that graph through every
step, so the second projection is the graph when the operation returns.
The read primitives return the graph unchanged because the source only
invokes observers (`order`, `forEachNode`, `someNode`,
`forEachNeighbor`); a mutating primitive such as `dropNode` would return
an updated graph instead. -/

/-- State-passing embedding of the `graph.forEachNeighbor` call. -/
def neighborsRun (g : Graph) (n : Nat) : List Nat × Graph :=
  (g.neighbors n, g)

/-- State-passing version of the weak DFS inner loop. -/
def dfsGoRun (g : Graph) (seen : Finset Nat) (stack : List Nat) :
    (List Nat × Finset Nat) × Graph :=
  match stack with
  | [] => (([], seen), g)
  | source :: rest =>
    if source ∈ seen then dfsGoRun g seen rest
    else
      let p := dfsGoRun (neighborsRun g source).2 (insert source seen)
        (((neighborsRun g source).1.filter
            (fun t => decide (t ∉ insert source seen))).reverse ++ rest)
      ((source :: p.1.1, p.1.2), p.2)
termination_by (((g.univF ∪ stack.toFinset) \ seen).card, stack.length)
decreasing_by
  · exact Prod.lex_iff.mpr
      (Or.inr ⟨congrArg Finset.card (dfs_measure_eq g seen source rest ‹_›).symm,
        by simp⟩)
  · simp only [neighborsRun]
    exact Prod.Lex.left _ _
      (dfs_measure_lt g seen source rest _
        (fun x hx => neighbors_mem_univF g
          (List.mem_filter.mp (List.mem_reverse.mp hx)).1) ‹_›)

theorem dfsGoRun_frame (g : Graph) (seen : Finset Nat) (stack : List Nat) :
    dfsGoRun g seen stack = (dfsGo g seen stack, g) := by
  induction g, seen, stack using dfsGoRun.induct
  case case1 seen => rw [dfsGoRun, dfsGo]
  case case2 seen source rest hmem ih =>
    rw [dfsGoRun, dfsGo]
    simp only [if_pos hmem]
    exact ih
  case case3 seen source rest hmem ih =>
    simp only [neighborsRun] at ih
    rw [dfsGoRun, dfsGo]
    simp only [if_neg hmem, neighborsRun, ih]

/-- State-passing version of the size-only inner loop. -/
def dfsCountRun (g : Graph) (seen : Finset Nat) (stack : List Nat) :
    (Nat × Finset Nat) × Graph :=
  match stack with
  | [] => ((0, seen), g)
  | source :: rest =>
    if source ∈ seen then dfsCountRun g seen rest
    else
      let p := dfsCountRun (neighborsRun g source).2 (insert source seen)
        (((neighborsRun g source).1.filter
            (fun t => decide (t ∉ insert source seen))).reverse ++ rest)
      ((p.1.1 + 1, p.1.2), p.2)
termination_by (((g.univF ∪ stack.toFinset) \ seen).card, stack.length)
decreasing_by
  · exact Prod.lex_iff.mpr
      (Or.inr ⟨congrArg Finset.card (dfs_measure_eq g seen source rest ‹_›).symm,
        by simp⟩)
  · simp only [neighborsRun]
    exact Prod.Lex.left _ _
      (dfs_measure_lt g seen source rest _
        (fun x hx => neighbors_mem_univF g
          (List.mem_filter.mp (List.mem_reverse.mp hx)).1) ‹_›)

theorem dfsCountRun_frame (g : Graph) (seen : Finset Nat) (stack : List Nat) :
    dfsCountRun g seen stack = (dfsCount g seen stack, g) := by
  induction g, seen, stack using dfsCountRun.induct
  case case1 seen => rw [dfsCountRun, dfsCount]
  case case2 seen source rest hmem ih =>
    rw [dfsCountRun, dfsCount]
    simp only [if_pos hmem]
    exact ih
  case case3 seen source rest hmem ih =>
    simp only [neighborsRun] at ih
    rw [dfsCountRun, dfsCount]
    simp only [if_neg hmem, neighborsRun, ih]

/-- State-passing version of the `forEachConnectedComponent` outer loop. -/
def weakGoRun (g : Graph) (roots : List Nat) (seen : Finset Nat) :
    List (List Nat) × Graph :=
  match roots with
  | [] => ([], g)
  | r :: rest =>
    if r ∈ seen then weakGoRun g rest seen
    else
      let p := dfsGoRun g seen [r]
      let q := weakGoRun p.2 rest p.1.2
      (p.1.1 :: q.1, q.2)

theorem weakGoRun_frame (g : Graph) (roots : List Nat) (seen : Finset Nat) :
    weakGoRun g roots seen = ((weakGoFull g roots seen).1, g) := by
  induction roots generalizing seen with
  | nil => rw [weakGoRun, weakGoFull]
  | cons r rest ih =>
    rw [weakGoRun, weakGoFull]
    by_cases hr : r ∈ seen
    · simp only [if_pos hr]
      exact ih seen
    · simp only [if_neg hr, dfsGoRun_frame, ih]

/-- State-passing embedding of `forEachConnectedComponent`. -/
def forEachConnectedComponentRun (g : Graph) : List (List Nat) × Graph :=
  if g.order = 0 then ([], g) else weakGoRun g g.nodeIds ∅

/-- State-passing embedding of `connectedComponents`. -/
def connectedComponentsRun (g : Graph) : List (List Nat) × Graph :=
  forEachConnectedComponentRun g

/-- State-passing version of the `forEachConnectedComponentOrder` outer
loop. -/
def orderGoRun (g : Graph) (roots : List Nat) (seen : Finset Nat) :
    List Nat × Graph :=
  match roots with
  | [] => ([], g)
  | r :: rest =>
    if r ∈ seen then orderGoRun g rest seen
    else
      let p := dfsCountRun g seen [r]
      let q := orderGoRun p.2 rest p.1.2
      (p.1.1 :: q.1, q.2)

theorem orderGoRun_frame (g : Graph) (roots : List Nat) (seen : Finset Nat) :
    orderGoRun g roots seen = ((orderGoFull g roots seen).1, g) := by
  induction roots generalizing seen with
  | nil => rw [orderGoRun, orderGoFull]
  | cons r rest ih =>
    rw [orderGoRun, orderGoFull]
    by_cases hr : r ∈ seen
    · simp only [if_pos hr]
      exact ih seen
    · simp only [if_neg hr, dfsCountRun_frame, ih]

/-- State-passing embedding of `forEachConnectedComponentOrder`. -/
def forEachConnectedComponentOrderRun (g : Graph) : List Nat × Graph :=
  if g.order = 0 then ([], g) else orderGoRun g g.nodeIds ∅

/-- State-passing version of the `largestConnectedComponent` loop. -/
def largestGoRun (g : Graph) (roots : List Nat) (seen : Finset Nat)
    (best : List Nat) : List Nat × Graph :=
  match roots with
  | [] => (best, g)
  | r :: rest =>
    if r ∈ seen then largestGoRun g rest seen best
    else
      let p := dfsGoRun g seen [r]
      let best1 := pickLarger best p.1.1
      if g.order - p.1.2.card < best1.length then (best1, p.2)
      else largestGoRun p.2 rest p.1.2 best1

theorem largestGoRun_frame (g : Graph) (roots : List Nat)
    (seen : Finset Nat) (best : List Nat) :
    largestGoRun g roots seen best = (largestGo g roots seen best, g) := by
  induction roots generalizing seen best with
  | nil => rw [largestGoRun, largestGo]
  | cons r rest ih =>
    rw [largestGoRun, largestGo]
    by_cases hr : r ∈ seen
    · simp only [if_pos hr]
      exact ih seen best
    · simp only [if_neg hr, dfsGoRun_frame, ih]
      split <;> rfl

/-- State-passing embedding of `largestConnectedComponent`. -/
def largestConnectedComponentRun (g : Graph) : List Nat × Graph :=
  if g.order = 0 then ([], g) else largestGoRun g g.nodeIds ∅ []

/-! Strongly connected components (path-based, Pearce-style). -/

/-- The state threaded through the SCC computation: the preorder counter
`count`, the path stack `P` and the secondary stack `S` (list heads are
the stack tops), the preorder map (an association list that only ever
receives fresh keys), the set of nodes already assigned to a component,
and the emitted components in emission order. -/
structure SCCState where
  count : Nat
  P : List Nat
  S : List Nat
  preorder : List (Nat × Nat)
  assigned : Finset Nat
  components : List (List Nat)

/-- Preorder index of a node (`preorder.get`); `none` plays the role of
`undefined`. -/
def SCCState.pre (st : SCCState) (n : Nat) : Option Nat := st.preorder.lookup n

/-- The set of nodes holding a preorder index. -/
def SCCState.domF (st : SCCState) : Finset Nat :=
  (st.preorder.map Prod.fst).toFinset

theorem lookup_eq_none_iff (l : List (Nat × Nat)) (k : Nat) :
    l.lookup k = none ↔ k ∉ l.map Prod.fst := by
  induction l with
  | nil => simp
  | cons p l ih =>
    rw [List.lookup]
    by_cases hk : k = p.1
    · subst hk
      simp
    · have : (k == p.1) = false := by simpa using hk
      rw [this]
      simp only [List.map_cons, List.mem_cons]
      rw [ih]
      constructor
      · intro h hmem
        rcases hmem with hmem | hmem
        · exact hk hmem
        · exact h hmem
      · intro h hmem
        exact h (Or.inr hmem)

theorem mem_domF_iff (st : SCCState) (k : Nat) :
    k ∈ st.domF ↔ st.pre k ≠ none := by
  rw [SCCState.domF, List.mem_toFinset, SCCState.pre]
  rw [← not_iff_not, not_not]
  exact (lookup_eq_none_iff _ _).symm

/-- Embedding of the loop
`while (preorder.get(P[P.length - 1]) > neighborOrder) P.pop()`:
pop while the top of `P` has a preorder index strictly greater than the
bound. A node without an index compares as `undefined`, never greater,
and an empty `P` also stops the loop. -/
def popWhileGreater (pre : List (Nat × Nat)) (bound : Nat) :
    List Nat → List Nat
  | [] => []
  | x :: rest =>
    match pre.lookup x with
    | some px =>
      if bound < px then popWhileGreater pre bound rest else x :: rest
    | none => x :: rest

/-- Embedding of the do-while loop that pops `S` until the popped node
equals the current one: returns the popped nodes in pop order and the
remaining stack. The loop is only entered with the current node on `S`
(popping an empty JavaScript array would loop forever on `undefined`);
the embedding simply stops when `S` runs out. -/
def popUntilEq (node : Nat) : List Nat → List Nat × List Nat
  | [] => ([], [])
  | x :: rest =>
    if x = node then ([x], rest)
    else
      let p := popUntilEq node rest
      (x :: p.1, p.2)

/-- The end-of-call step of `DFS(node)`: when the top of `P` carries the
same preorder index as `node`, the current component is complete; pop it
off `S` (marking the nodes assigned), emit it, and pop `P`. With an
empty `P` the JavaScript comparison is `undefined === number`, hence
false, and nothing happens. -/
def sccEmit (node : Nat) (st : SCCState) : SCCState :=
  match st.P with
  | [] => st
  | top :: ptail =>
    if st.pre top = st.pre node then
      let pu := popUntilEq node st.S
      { st with S := pu.2,
                assigned := st.assigned ∪ pu.1.toFinset,
                components := st.components ++ [pu.1],
                P := ptail }
    else st

theorem sccEmit_preorder (node : Nat) (st : SCCState) :
    (sccEmit node st).preorder = st.preorder := by
  rw [sccEmit]
  split
  · rfl
  · split <;> rfl

theorem sccEmit_domF (node : Nat) (st : SCCState) :
    (sccEmit node st).domF = st.domF := by
  rw [SCCState.domF, SCCState.domF, sccEmit_preorder]

theorem sdiff_insert_card_lt (U D : Finset Nat) (x : Nat) (hx : x ∈ U)
    (hd : x ∉ D) : (U \ insert x D).card < (U \ D).card := by
  apply Finset.card_lt_card
  constructor
  · intro y hy
    rw [Finset.mem_sdiff] at hy ⊢
    exact ⟨hy.1, fun hyD => hy.2 (Finset.mem_insert_of_mem hyD)⟩
  · intro hsub
    have : x ∈ U \ D := Finset.mem_sdiff.mpr ⟨hx, hd⟩
    have := hsub this
    rw [Finset.mem_sdiff] at this
    exact this.2 (Finset.mem_insert_self _ _)

/-- The recursive core of `stronglyConnectedComponents`. `Sum.inl node`
is a call `DFS(node)`: assign the next preorder index, push the node on
`P` and `S`, process the outbound neighbors, then run the emission
check. `Sum.inr nbs` is the neighbor loop: an indexed unassigned
neighbor collapses `P`; an indexed assigned neighbor is skipped; an
unindexed neighbor is visited recursively. The result carries the fact
that the preorder domain only grows, which also bounds the recursion.
The entry guard of the `inl` case (the argument is in the universe and
has no index yet) is a defensive totalization: every call from this
development satisfies it, exactly as in the source, where `DFS` is only
reached through those checks. -/
def sccGo (g : Graph) (a : Sum Nat (List Nat)) (st : SCCState) :
    {st' : SCCState // st.domF ⊆ st'.domF} :=
  match a with
  | Sum.inl node =>
    if hg : node ∈ g.univF ∧ st.pre node = none then
      match sccGo g (Sum.inr (g.outboundNeighbors node))
          { st with
              count := st.count + 1
              preorder := (node, st.count) :: st.preorder
              P := node :: st.P
              S := node :: st.S } with
      | ⟨st2, hsub⟩ =>
        ⟨sccEmit node st2, by
          rw [sccEmit_domF]
          refine Finset.Subset.trans ?_ hsub
          intro y hy
          rw [SCCState.domF, List.map_cons, List.toFinset_cons]
          exact Finset.mem_insert_of_mem hy⟩
    else ⟨st, Finset.Subset.refl _⟩
  | Sum.inr [] => ⟨st, Finset.Subset.refl _⟩
  | Sum.inr (nb :: rest) =>
    match st.pre nb with
    | some nbOrd =>
      match sccGo g (Sum.inr rest)
          (if nb ∈ st.assigned then st
           else { st with P := popWhileGreater st.preorder nbOrd st.P }) with
      | ⟨st2, hsub⟩ =>
        ⟨st2, by
          refine Finset.Subset.trans ?_ hsub
          split
          · exact Finset.Subset.refl _
          · exact Finset.Subset.refl _⟩
    | none =>
      match sccGo g (Sum.inl nb) st with
      | ⟨st1, h1⟩ =>
        match sccGo g (Sum.inr rest) st1 with
        | ⟨st2, h2⟩ => ⟨st2, Finset.Subset.trans h1 h2⟩
termination_by
  ((g.univF \ st.domF).card,
    match a with
    | Sum.inl _ => 0
    | Sum.inr l => l.length + 1)
decreasing_by
  · apply Prod.Lex.left
    have hdom : ({ st with
        count := st.count + 1
        preorder := (node, st.count) :: st.preorder
        P := node :: st.P
        S := node :: st.S } : SCCState).domF
        = insert node st.domF := by
      rw [SCCState.domF, SCCState.domF]
      simp
    rw [hdom]
    exact sdiff_insert_card_lt _ _ _ hg.1
      (fun hd => ((mem_domF_iff st node).mp hd) hg.2)
  · split
    · exact Prod.lex_iff.mpr (Or.inr ⟨rfl, by simp only [List.length_cons]; omega⟩)
    · exact Prod.lex_iff.mpr (Or.inr ⟨rfl, by simp only [List.length_cons]; omega⟩)
  · exact Prod.lex_iff.mpr (Or.inr ⟨rfl, by omega⟩)
  · rcases lt_or_eq_of_le (Finset.card_le_card (Finset.sdiff_subset_sdiff
        (Finset.Subset.refl g.univF) h1)) with hlt | heq
    · exact Prod.Lex.left _ _ hlt
    · exact Prod.lex_iff.mpr
        (Or.inr ⟨heq, by simp only [List.length_cons]; omega⟩)

/-- The outer loop of `stronglyConnectedComponents`: start a DFS from
every node, in enumeration order, that is not yet assigned. -/
def sccOuter (g : Graph) (roots : List Nat) (st : SCCState) : SCCState :=
  match roots with
  | [] => st
  | v :: rest =>
    if v ∈ st.assigned then sccOuter g rest st
    else sccOuter g rest (sccGo g (Sum.inl v) st).1

/-- The initial SCC state: counter 1, everything else empty. -/
def initSCC : SCCState := ⟨1, [], [], [], ∅, []⟩

/-- Embedding of `stronglyConnectedComponents`. The checks run in source
order: a null graph returns an empty list before the directionality
check; an undirected graph is rejected; a graph with nodes but no edges
yields one singleton component per node without traversing; otherwise
the path-based DFS runs from every unassigned node. -/
def stronglyConnectedComponents (g : Graph) :
    Except String (List (List Nat)) :=
  if g.order = 0 then Except.ok []
  else if g.type = GraphType.undirected then
    Except.error "graphology-components: the given graph is undirected"
  else if g.size = 0 then
    Except.ok (g.nodeIds.map (fun n => [n]))
  else Except.ok (sccOuter g g.nodeIds initSCC).components

/-! Invariants for the SCC computation (Pearce-style path algorithm). -/

/-- The state invariant maintained by the SCC computation: preorder
indices are below the counter; `P`, `S` and the assigned set hold only
indexed nodes; every indexed node is on `S` or assigned; `S` is
duplicate-free and disjoint from the assigned set; the emitted
components concatenate, without duplicates, to exactly the assigned set;
and all indexed nodes come from the universe. -/
structure SCCInv (g : Graph) (st : SCCState) : Prop where
  pre_lt_count : ∀ n v, st.pre n = some v → v < st.count
  S_sub_dom : ∀ x ∈ st.S, st.pre x ≠ none
  P_sub_dom : ∀ x ∈ st.P, st.pre x ≠ none
  assigned_sub_dom : ∀ x ∈ st.assigned, st.pre x ≠ none
  dom_split : ∀ x, st.pre x ≠ none → x ∈ st.S ∨ x ∈ st.assigned
  S_nodup : st.S.Nodup
  S_unassigned : ∀ x ∈ st.S, x ∉ st.assigned
  flat_eq : st.components.flatten.toFinset = st.assigned
  flat_nodup : st.components.flatten.Nodup
  dom_sub_univ : ∀ x, st.pre x ≠ none → x ∈ g.univF

/-- What every SCC step guarantees between its entry and exit states:
existing indices are stable, fresh indices are at least the entry
counter, indices below the entry counter were already present, the
counter and the assigned set grow, newly assigned nodes were unindexed
at entry, `S` only grows by unindexed-at-entry nodes, and components are
only appended. -/
structure SCCPost (st st' : SCCState) : Prop where
  preStable : ∀ n v, st.pre n = some v → st'.pre n = some v
  newHigh : ∀ n v, st.pre n = none → st'.pre n = some v → st.count ≤ v
  oldLow : ∀ n v, st'.pre n = some v → v < st.count → st.pre n = some v
  count_mono : st.count ≤ st'.count
  assigned_mono : st.assigned ⊆ st'.assigned
  assigned_new : ∀ x ∈ st'.assigned, x ∈ st.assigned ∨ st.pre x = none
  S_shape : ∃ mid, st'.S = mid ++ st.S ∧ ∀ x ∈ mid, st.pre x = none
  comps_grow : ∃ cs, st'.components = st.components ++ cs

/-- Witnesses for dropped `P` entries: each entry dropped from the path
stack was popped past because some indexed node, unassigned at entry,
carried a strictly smaller preorder index. -/
def PopWitness (st st' : SCCState) (k : Nat) : Prop :=
  ∀ j, j < k → ∀ x, st.P[j]? = some x →
    ∃ y vy vx, st'.pre y = some vy ∧ y ∉ st.assigned ∧
      st'.pre x = some vx ∧ vy < vx

/-- Postcondition of a `DFS(node)` call: the step relation holds, the
node received the entry counter as its index, and either its component
was emitted (node assigned, `P` and `S` restored, every node indexed
during the call assigned) or it collapsed into an ancestor (node
unassigned, `P` reduced to a dropped suffix of the entry path stack with
pop witnesses, and some unassigned node indexed before the call has a
smaller index). -/
def InlPost (node : Nat) (st st' : SCCState) : Prop :=
  SCCPost st st' ∧ st'.pre node = some st.count ∧
  ((node ∈ st'.assigned ∧ st'.P = st.P ∧ st'.S = st.S ∧
      (∀ x, st.pre x = none → st'.pre x ≠ none → x ∈ st'.assigned)) ∨
   (node ∉ st'.assigned ∧
      (∃ k, st'.P = st.P.drop k ∧ PopWitness st st' k) ∧
      (∃ y vy, st'.pre y = some vy ∧ vy < st.count ∧ y ∉ st.assigned)))

/-- Postcondition of the neighbor loop: the step relation holds and `P`
loses a dropped prefix, each dropped entry justified by a pop witness. -/
def InrPost (st st' : SCCState) : Prop :=
  SCCPost st st' ∧ ∃ k, st'.P = st.P.drop k ∧ PopWitness st st' k

/-- The specification of `sccGo`, by case on the argument. -/
def SCCGoSpec (g : Graph) (a : Sum Nat (List Nat)) (st st' : SCCState) :
    Prop :=
  match a with
  | Sum.inl node => st.pre node = none → node ∈ g.univF →
      SCCInv g st' ∧ InlPost node st st'
  | Sum.inr nbs => (∀ x ∈ nbs, x ∈ g.univF) → SCCInv g st' ∧ InrPost st st'

theorem lookup_cons_eq_self (l : List (Nat × Nat)) (k v : Nat) :
    ((k, v) :: l).lookup k = some v := by
  simp [List.lookup]

theorem lookup_cons_of_ne (l : List (Nat × Nat)) (k v m : Nat)
    (h : m ≠ k) : ((k, v) :: l).lookup m = l.lookup m := by
  rw [List.lookup]
  have : (m == k) = false := by simpa using h
  rw [this]

theorem sccPost_refl (st : SCCState) : SCCPost st st where
  preStable := fun _ _ h => h
  newHigh := fun n v h1 h2 => absurd h2 (h1 ▸ fun h => by cases h)
  oldLow := fun _ _ h _ => h
  count_mono := le_refl _
  assigned_mono := Finset.Subset.refl _
  assigned_new := fun x hx => Or.inl hx
  S_shape := ⟨[], rfl, by simp⟩
  comps_grow := ⟨[], by simp⟩

theorem sccPost_trans {st1 st2 st3 : SCCState} (h1 : SCCPost st1 st2)
    (h2 : SCCPost st2 st3) : SCCPost st1 st3 where
  preStable := fun n v h => h2.preStable n v (h1.preStable n v h)
  newHigh := fun n v hn hs => by
    cases hm : st2.pre n with
    | some w =>
      have hst := h2.preStable n w hm
      rw [hst, Option.some.injEq] at hs
      subst hs
      exact h1.newHigh n w hn hm
    | none =>
      exact le_trans h1.count_mono (h2.newHigh n v hm hs)
  oldLow := fun n v hs hv =>
    h1.oldLow n v (h2.oldLow n v hs (lt_of_lt_of_le hv h1.count_mono)) hv
  count_mono := le_trans h1.count_mono h2.count_mono
  assigned_mono := Finset.Subset.trans h1.assigned_mono h2.assigned_mono
  assigned_new := fun x hx => by
    rcases h2.assigned_new x hx with h | h
    · exact h1.assigned_new x h
    · cases hm : st1.pre x with
      | some w => rw [h1.preStable x w hm] at h; cases h
      | none => exact Or.inr rfl
  S_shape := by
    obtain ⟨m2, hm2, hn2⟩ := h2.S_shape
    obtain ⟨m1, hm1, hn1⟩ := h1.S_shape
    refine ⟨m2 ++ m1, by rw [hm2, hm1, List.append_assoc], ?_⟩
    intro x hx
    rcases List.mem_append.mp hx with hx | hx
    · cases hm : st1.pre x with
      | some w =>
        have := h1.preStable x w hm
        rw [hn2 x hx] at this
        cases this
      | none => rfl
    · exact hn1 x hx
  comps_grow := by
    obtain ⟨c2, hc2⟩ := h2.comps_grow
    obtain ⟨c1, hc1⟩ := h1.comps_grow
    exact ⟨c1 ++ c2, by rw [hc2, hc1, List.append_assoc]⟩

/-- A step that only rewrites the path stack satisfies the step
relation. -/
theorem sccPost_setP (st : SCCState) (P2 : List Nat) :
    SCCPost st { st with P := P2 } where
  preStable := fun _ _ h => h
  newHigh := fun n v h1 h2 => absurd h2 (h1 ▸ fun h => by cases h)
  oldLow := fun _ _ h _ => h
  count_mono := le_refl _
  assigned_mono := Finset.Subset.refl _
  assigned_new := fun x hx => Or.inl hx
  S_shape := ⟨[], rfl, by simp⟩
  comps_grow := ⟨[], by simp⟩

theorem popWhileGreater_eq_drop (pre : List (Nat × Nat)) (bound : Nat)
    (P : List Nat) :
    ∃ k, popWhileGreater pre bound P = P.drop k ∧
      ∀ j, j < k → ∀ x, P[j]? = some x →
        ∃ v, pre.lookup x = some v ∧ bound < v := by
  induction P with
  | nil => exact ⟨0, rfl, by omega⟩
  | cons x rest ih =>
    rw [popWhileGreater]
    cases hx : pre.lookup x with
    | some px =>
      by_cases hb : bound < px
      · simp only [if_pos hb]
        obtain ⟨k, hk, hw⟩ := ih
        refine ⟨k + 1, by simpa using hk, ?_⟩
        intro j hj z hz
        match j with
        | 0 =>
          simp only [List.getElem?_cons_zero, Option.some.injEq] at hz
          subst hz
          exact ⟨px, hx, hb⟩
        | j' + 1 =>
          exact hw j' (by omega) z (by simpa using hz)
      · simp only [if_neg hb]
        exact ⟨0, rfl, by omega⟩
    | none => exact ⟨0, rfl, by omega⟩

theorem popUntilEq_spec (node : Nat) (pref suff : List Nat)
    (hn : node ∉ pref) :
    popUntilEq node (pref ++ node :: suff) = (pref ++ [node], suff) := by
  induction pref with
  | nil => simp [popUntilEq]
  | cons x rest ih =>
    have hxn : ¬x = node := fun h => hn (h ▸ List.mem_cons_self _ _)
    rw [List.cons_append, popUntilEq]
    simp only [if_neg hxn]
    rw [ih fun h => hn (List.mem_cons_of_mem _ h)]
    simp

theorem outbound_mem_univF (g : Graph) {n y : Nat}
    (hy : y ∈ g.outboundNeighbors n) : y ∈ g.univF := by
  simp only [Graph.outboundNeighbors, List.mem_filterMap] at hy
  obtain ⟨e, he, hey⟩ := hy
  simp only [Graph.univF, Graph.univ, List.toFinset_append, Finset.mem_union,
    List.mem_toFinset, List.mem_flatMap]
  right
  refine ⟨e, he, ?_⟩
  simp only [Edge.outTo, Edge.other] at hey
  split at hey
  · split at hey
    · simp_all
    · split at hey <;> simp_all
  · split at hey <;> simp_all

theorem univF_mem_iff (g : Graph) (hWF : g.WF) (x : Nat) :
    x ∈ g.univF ↔ x ∈ g.nodeIds := by
  simp only [Graph.univF, Graph.univ, List.toFinset_append, Finset.mem_union,
    List.mem_toFinset, List.mem_flatMap]
  constructor
  · rintro (h | ⟨e, he, hx⟩)
    · exact h
    · simp only [List.mem_cons, List.mem_singleton] at hx
      rcases hx with rfl | rfl | h
      · exact hWF.2.1 e he
      · exact hWF.2.2 e he
      · cases h
  · exact Or.inl

theorem flatten_map_singleton (l : List Nat) :
    (l.map (fun n => [n])).flatten = l := by
  induction l with
  | nil => rfl
  | cons x rest ih => simp [ih]

/-- Pushing a fresh node onto the SCC state preserves the invariant. -/
theorem sccPush_inv (g : Graph) (node : Nat) (st : SCCState)
    (hinv : SCCInv g st) (hfresh : st.pre node = none)
    (huniv : node ∈ g.univF) :
    SCCInv g { st with
      count := st.count + 1
      P := node :: st.P
      S := node :: st.S
      preorder := (node, st.count) :: st.preorder } := by
  have hself : ((node, st.count) :: st.preorder).lookup node = some st.count :=
    lookup_cons_eq_self st.preorder node st.count
  have hne : ∀ m, m ≠ node →
      ((node, st.count) :: st.preorder).lookup m = st.pre m :=
    fun m hm => lookup_cons_of_ne st.preorder node st.count m hm
  have hnotS : node ∉ st.S := fun h => hinv.S_sub_dom node h hfresh
  have hnotA : node ∉ st.assigned :=
    fun h => hinv.assigned_sub_dom node h hfresh
  constructor
  · intro n v hnv
    show v < st.count + 1
    have hnv2 : ((node, st.count) :: st.preorder).lookup n = some v := hnv
    by_cases hn : n = node
    · subst hn
      rw [hself, Option.some.injEq] at hnv2
      omega
    · rw [hne n hn] at hnv2
      have := hinv.pre_lt_count n v hnv2
      omega
  · intro x hx h
    have h2 : ((node, st.count) :: st.preorder).lookup x = none := h
    have hx2 : x ∈ node :: st.S := hx
    by_cases hxn : x = node
    · subst hxn
      rw [hself] at h2
      cases h2
    · rw [hne x hxn] at h2
      rcases List.mem_cons.mp hx2 with rfl | hx3
      · exact absurd rfl hxn
      · exact hinv.S_sub_dom x hx3 h2
  · intro x hx h
    have h2 : ((node, st.count) :: st.preorder).lookup x = none := h
    have hx2 : x ∈ node :: st.P := hx
    by_cases hxn : x = node
    · subst hxn
      rw [hself] at h2
      cases h2
    · rw [hne x hxn] at h2
      rcases List.mem_cons.mp hx2 with rfl | hx3
      · exact absurd rfl hxn
      · exact hinv.P_sub_dom x hx3 h2
  · intro x hx h
    have h2 : ((node, st.count) :: st.preorder).lookup x = none := h
    have hxn : x ≠ node := fun hh => hnotA (hh ▸ hx)
    rw [hne x hxn] at h2
    exact hinv.assigned_sub_dom x hx h2
  · intro x hx
    have hx2 : ((node, st.count) :: st.preorder).lookup x ≠ none := hx
    show x ∈ node :: st.S ∨ x ∈ st.assigned
    by_cases hxn : x = node
    · subst hxn
      exact Or.inl (List.mem_cons_self _ _)
    · rw [hne x hxn] at hx2
      rcases hinv.dom_split x hx2 with h | h
      · exact Or.inl (List.mem_cons_of_mem _ h)
      · exact Or.inr h
  · exact List.nodup_cons.mpr ⟨hnotS, hinv.S_nodup⟩
  · intro x hx
    have hx2 : x ∈ node :: st.S := hx
    show x ∉ st.assigned
    rcases List.mem_cons.mp hx2 with rfl | hx3
    · exact hnotA
    · exact hinv.S_unassigned x hx3
  · exact hinv.flat_eq
  · exact hinv.flat_nodup
  · intro x hx
    have hx2 : ((node, st.count) :: st.preorder).lookup x ≠ none := hx
    by_cases hxn : x = node
    · subst hxn
      exact huniv
    · rw [hne x hxn] at hx2
      exact hinv.dom_sub_univ x hx2

/-- Pushing a fresh node onto the SCC state is a valid step. -/
theorem sccPush_post (node : Nat) (st : SCCState)
    (hfresh : st.pre node = none) :
    SCCPost st { st with
      count := st.count + 1
      P := node :: st.P
      S := node :: st.S
      preorder := (node, st.count) :: st.preorder } := by
  have hself : ((node, st.count) :: st.preorder).lookup node = some st.count :=
    lookup_cons_eq_self st.preorder node st.count
  have hne : ∀ m, m ≠ node →
      ((node, st.count) :: st.preorder).lookup m = st.pre m :=
    fun m hm => lookup_cons_of_ne st.preorder node st.count m hm
  constructor
  · intro n v hnv
    show ((node, st.count) :: st.preorder).lookup n = some v
    have hn : n ≠ node := fun h => by rw [h, hfresh] at hnv; cases hnv
    rw [hne n hn]
    exact hnv
  · intro n v hn hs
    have hs2 : ((node, st.count) :: st.preorder).lookup n = some v := hs
    show st.count ≤ v
    by_cases hnn : n = node
    · subst hnn
      rw [hself, Option.some.injEq] at hs2
      omega
    · rw [hne n hnn] at hs2
      rw [hn] at hs2
      cases hs2
  · intro n v hs hv
    have hs2 : ((node, st.count) :: st.preorder).lookup n = some v := hs
    have hv2 : v < st.count := hv
    by_cases hnn : n = node
    · subst hnn
      rw [hself, Option.some.injEq] at hs2
      omega
    · rw [hne n hnn] at hs2
      exact hs2
  · show st.count ≤ st.count + 1
    omega
  · exact Finset.Subset.refl _
  · exact fun x hx => Or.inl hx
  · refine ⟨[node], rfl, ?_⟩
    intro x hx
    rw [List.mem_singleton] at hx
    subst hx
    exact hfresh
  · exact ⟨[], by simp⟩

theorem sccGo_val_some (g : Graph) (st : SCCState) (nb : Nat)
    (rest : List Nat) (px : Nat) (hpre : st.pre nb = some px) :
    (sccGo g (Sum.inr (nb :: rest)) st).1
      = (sccGo g (Sum.inr rest)
          (if nb ∈ st.assigned then st
           else { st with P := popWhileGreater st.preorder px st.P })).1 := by
  rw [sccGo, hpre]

theorem sccGo_val_none (g : Graph) (st : SCCState) (nb : Nat)
    (rest : List Nat) (hpre : st.pre nb = none) :
    (sccGo g (Sum.inr (nb :: rest)) st).1
      = (sccGo g (Sum.inr rest) (sccGo g (Sum.inl nb) st).1).1 := by
  conv_lhs => rw [sccGo, hpre]

theorem sccGo_val_inl (g : Graph) (st : SCCState) (node : Nat)
    (hg : node ∈ g.univF ∧ st.pre node = none) :
    (sccGo g (Sum.inl node) st).1
      = sccEmit node (sccGo g (Sum.inr (g.outboundNeighbors node))
          { st with
            count := st.count + 1
            P := node :: st.P
            S := node :: st.S
            preorder := (node, st.count) :: st.preorder }).1 := by
  rw [sccGo, dif_pos hg]

theorem sccEmit_nil (node : Nat) (st : SCCState) (hP : st.P = []) :
    sccEmit node st = st := by
  unfold sccEmit
  rw [hP]

theorem sccEmit_cons_ne (node top : Nat) (ptail : List Nat) (st : SCCState)
    (hP : st.P = top :: ptail) (hne : ¬ st.pre top = st.pre node) :
    sccEmit node st = st := by
  unfold sccEmit
  rw [hP]
  simp only [if_neg hne]

theorem sccEmit_cons_eq (node top : Nat) (ptail : List Nat) (st : SCCState)
    (hP : st.P = top :: ptail) (heq : st.pre top = st.pre node) :
    sccEmit node st = { st with
      P := ptail
      S := (popUntilEq node st.S).2
      assigned := st.assigned ∪ (popUntilEq node st.S).1.toFinset
      components := st.components ++ [(popUntilEq node st.S).1] } := by
  unfold sccEmit
  rw [hP]
  simp only [if_pos heq]

/-- The main invariant lemma for the SCC recursion: from an invariant
entry state, every call preserves the invariant and satisfies its case
postcondition. -/
theorem sccGo_spec (g : Graph) (a : Sum Nat (List Nat)) (st : SCCState) :
    SCCInv g st → SCCGoSpec g a st (sccGo g a st).1 := by
  induction a, st using sccGo.induct g
  case case2 st node hg =>
    intro hinv hfresh huniv
    exact absurd ⟨huniv, hfresh⟩ hg
  case case3 st =>
    intro hinv hprem
    have hres : (sccGo g (Sum.inr []) st).1 = st := by rw [sccGo]
    rw [hres]
    exact ⟨hinv, sccPost_refl st, 0, rfl,
      fun j hj => absurd hj (Nat.not_lt_zero j)⟩
  case case4 st nb rest px hpre st2 hsub heq ih =>
    intro hinv hprem
    have heq1 : (sccGo g (Sum.inr rest) _).1 = st2 :=
      congrArg Subtype.val heq
    by_cases hass : nb ∈ st.assigned
    · rw [dif_pos hass] at ih heq1
      rw [sccGo_val_some g st nb rest px hpre, if_pos hass, heq1]
      have hih := ih hinv (fun x hx => hprem x (List.mem_cons_of_mem _ hx))
      rw [heq1] at hih
      exact hih
    · rw [dif_neg hass] at ih heq1
      rw [sccGo_val_some g st nb rest px hpre, if_neg hass, heq1]
      obtain ⟨k1, hk1, hw1⟩ := popWhileGreater_eq_drop st.preorder px st.P
      have hinvA : SCCInv g
          { st with P := popWhileGreater st.preorder px st.P } := by
        constructor
        · exact hinv.pre_lt_count
        · exact hinv.S_sub_dom
        · intro x hx
          have hx2 : x ∈ popWhileGreater st.preorder px st.P := hx
          rw [hk1] at hx2
          exact hinv.P_sub_dom x (List.drop_subset k1 st.P hx2)
        · exact hinv.assigned_sub_dom
        · intro x hx
          rcases hinv.dom_split x hx with h | h
          · exact Or.inl h
          · exact Or.inr h
        · exact hinv.S_nodup
        · exact hinv.S_unassigned
        · exact hinv.flat_eq
        · exact hinv.flat_nodup
        · exact hinv.dom_sub_univ
      have hih := ih hinvA (fun x hx => hprem x (List.mem_cons_of_mem _ hx))
      rw [heq1] at hih
      obtain ⟨hinv2, hpostA, k2, hPk2, hwitA⟩ := hih
      refine ⟨hinv2, sccPost_trans (sccPost_setP st _) hpostA, ?_⟩
      refine ⟨k1 + k2, ?_, ?_⟩
      · rw [hPk2]
        show (popWhileGreater st.preorder px st.P).drop k2 = _
        rw [hk1, List.drop_drop]
      · intro j hj x hx
        by_cases hjk : j < k1
        · obtain ⟨vx, hvx, hpxv⟩ := hw1 j hjk x hx
          refine ⟨nb, px, vx, ?_, hass, ?_, hpxv⟩
          · exact hpostA.preStable nb px hpre
          · exact hpostA.preStable x vx hvx
        · have hxA : (popWhileGreater st.preorder px st.P)[j - k1]?
              = some x := by
            rw [hk1, List.getElem?_drop]
            have hjj : k1 + (j - k1) = j := by omega
            rw [hjj]
            exact hx
          obtain ⟨y, vy, vx, hy, hyass, hx2, hlt⟩ :=
            hwitA (j - k1) (by omega) x hxA
          exact ⟨y, vy, vx, hy, hyass, hx2, hlt⟩
  case case5 st nb rest hpre st2 h2 heq st3 h3 heq2 ih1 ih2 =>
    intro hinv hprem
    have heq1 : (sccGo g (Sum.inl nb) st).1 = st2 :=
      congrArg Subtype.val heq
    have heq21 : (sccGo g (Sum.inr rest) st2).1 = st3 :=
      congrArg Subtype.val heq2
    rw [sccGo_val_none g st nb rest hpre, heq1, heq21]
    have hih1 := ih1 hinv
    rw [heq1] at hih1
    obtain ⟨hinv1, hpost1, hprenode, hcase⟩ :=
      hih1 hpre (hprem nb (List.mem_cons_self _ _))
    have hih2 := ih2 hinv1
    rw [heq21] at hih2
    obtain ⟨hinv3, hpost2, k2, hPk2, hwit2⟩ :=
      hih2 (fun x hx => hprem x (List.mem_cons_of_mem _ hx))
    refine ⟨hinv3, sccPost_trans hpost1 hpost2, ?_⟩
    rcases hcase with ⟨hassn, hPeq, hSeq, hall⟩ |
      ⟨hnass, ⟨k1, hPk1, hwit1⟩, hy⟩
    · refine ⟨k2, ?_, ?_⟩
      · rw [hPk2, hPeq]
      · intro j hj x hx
        have hx2 : st2.P[j]? = some x := by rw [hPeq]; exact hx
        obtain ⟨y, vy, vx, hy2, hyass, hx3, hlt⟩ := hwit2 j hj x hx2
        exact ⟨y, vy, vx, hy2,
          fun hc => hyass (hpost1.assigned_mono hc), hx3, hlt⟩
    · refine ⟨k1 + k2, ?_, ?_⟩
      · rw [hPk2, hPk1, List.drop_drop]
      · intro j hj x hx
        by_cases hjk : j < k1
        · obtain ⟨y, vy, vx, hy2, hyass, hx3, hlt⟩ := hwit1 j hjk x hx
          exact ⟨y, vy, vx, hpost2.preStable _ _ hy2, hyass,
            hpost2.preStable _ _ hx3, hlt⟩
        · have hxA : st2.P[j - k1]? = some x := by
            rw [hPk1, List.getElem?_drop]
            have hjj : k1 + (j - k1) = j := by omega
            rw [hjj]
            exact hx
          obtain ⟨y, vy, vx, hy2, hyass, hx3, hlt⟩ :=
            hwit2 (j - k1) (by omega) x hxA
          exact ⟨y, vy, vx, hy2,
            fun hc => hyass (hpost1.assigned_mono hc), hx3, hlt⟩
  case case1 st node hg st2 hsub heq ih =>
    intro hinv hfresh huniv
    have heq1 : (sccGo g (Sum.inr (g.outboundNeighbors node)) _).1 = st2 :=
      congrArg Subtype.val heq
    rw [sccGo_val_inl g st node hg, heq1]
    have hinv1 := sccPush_inv g node st hinv hfresh huniv
    have hih := ih hinv1
    rw [heq1] at hih
    obtain ⟨hinv2, hpost12, k, hPk, hwit⟩ :=
      hih (fun x hx => outbound_mem_univF g hx)
    have hpost01 := sccPush_post node st hfresh
    have hpost02 : SCCPost st st2 := sccPost_trans hpost01 hpost12
    have hpre2node : st2.pre node = some st.count :=
      hpost12.preStable node st.count
        (lookup_cons_eq_self st.preorder node st.count)
    obtain ⟨mid, hmid, hmidnew⟩ := hpost12.S_shape
    have hS2 : st2.S = mid ++ node :: st.S := hmid
    have hmidP : ∀ x ∈ mid, st.pre x = none ∧ x ≠ node := by
      intro x hx
      have h1 : ((node, st.count) :: st.preorder).lookup x = none :=
        hmidnew x hx
      by_cases hxn : x = node
      · subst hxn
        rw [lookup_cons_eq_self] at h1
        cases h1
      · rw [lookup_cons_of_ne _ _ _ _ hxn] at h1
        exact ⟨h1, hxn⟩
    by_cases hk0 : k = 0
    · -- the component rooted at the node is emitted
      subst hk0
      have hP2 : st2.P = node :: st.P := hPk
      have hnodemid : node ∉ mid := fun h => (hmidP node h).2 rfl
      have hSplit : popUntilEq node st2.S = (mid ++ [node], st.S) := by
        rw [hS2]
        exact popUntilEq_spec node mid st.S hnodemid
      have hemit : sccEmit node st2 = { st2 with
          P := st.P
          S := st.S
          assigned := st2.assigned ∪ (mid ++ [node]).toFinset
          components := st2.components ++ [mid ++ [node]] } := by
        rw [sccEmit_cons_eq node node st.P st2 hP2 rfl, hSplit]
      rw [hemit]
      set c : List Nat := mid ++ [node] with hc
      have hS2alt : st2.S = c ++ st.S := by
        rw [hS2, hc, List.append_cons]
      have hcS2 : ∀ x ∈ c, x ∈ st2.S := by
        intro x hx
        rw [hS2alt]
        exact List.mem_append_left _ hx
      have hnodupSplit := hinv2.S_nodup
      rw [hS2alt, List.nodup_append] at hnodupSplit
      have hcassigned : ∀ x ∈ c, x ∉ st2.assigned :=
        fun x hx => hinv2.S_unassigned x (hcS2 x hx)
      have hcdom : ∀ x ∈ c, st2.pre x ≠ none :=
        fun x hx => hinv2.S_sub_dom x (hcS2 x hx)
      refine ⟨?_, ?_⟩
      · constructor
        · exact hinv2.pre_lt_count
        · intro x hx
          have hx2 : x ∈ st.S := hx
          have hx3 : x ∈ st2.S := by
            rw [hS2alt]
            exact List.mem_append_right _ hx2
          exact hinv2.S_sub_dom x hx3
        · intro x hx
          have hx2 : x ∈ st.P := hx
          have hx3 : x ∈ st2.P := by
            rw [hP2]
            exact List.mem_cons_of_mem _ hx2
          exact hinv2.P_sub_dom x hx3
        · intro x hx
          have hx2 : x ∈ st2.assigned ∪ c.toFinset := hx
          rcases Finset.mem_union.mp hx2 with hx3 | hx3
          · exact hinv2.assigned_sub_dom x hx3
          · exact hcdom x (List.mem_toFinset.mp hx3)
        · intro x hx
          have hx2 : st2.pre x ≠ none := hx
          show x ∈ st.S ∨ x ∈ st2.assigned ∪ c.toFinset
          rcases hinv2.dom_split x hx2 with h | h
          · rw [hS2alt] at h
            rcases List.mem_append.mp h with h | h
            · exact Or.inr
                (Finset.mem_union_right _ (List.mem_toFinset.mpr h))
            · exact Or.inl h
          · exact Or.inr (Finset.mem_union_left _ h)
        · exact hnodupSplit.2.1
        · intro x hx
          have hx2 : x ∈ st.S := hx
          show x ∉ st2.assigned ∪ c.toFinset
          intro hcon
          rcases Finset.mem_union.mp hcon with h | h
          · exact hinv2.S_unassigned x
              (by rw [hS2alt]; exact List.mem_append_right _ hx2) h
          · exact hnodupSplit.2.2 (List.mem_toFinset.mp h) hx2
        · show (st2.components ++ [c]).flatten.toFinset
            = st2.assigned ∪ c.toFinset
          rw [List.flatten_append]
          simp only [List.flatten_cons, List.flatten_nil, List.append_nil]
          rw [List.toFinset_append, hinv2.flat_eq]
        · show (st2.components ++ [c]).flatten.Nodup
          rw [List.flatten_append]
          simp only [List.flatten_cons, List.flatten_nil, List.append_nil]
          rw [List.nodup_append]
          refine ⟨hinv2.flat_nodup, hnodupSplit.1, ?_⟩
          intro x hx hxc
          have : x ∈ st2.assigned := by
            rw [← hinv2.flat_eq]
            exact List.mem_toFinset.mpr hx
          exact hcassigned x hxc this
        · exact hinv2.dom_sub_univ
      · refine ⟨?_, hpre2node, Or.inl ⟨?_, rfl, rfl, ?_⟩⟩
        · constructor
          · exact hpost02.preStable
          · exact hpost02.newHigh
          · exact hpost02.oldLow
          · exact hpost02.count_mono
          · intro x hx
            exact Finset.mem_union_left _ (hpost02.assigned_mono hx)
          · intro x hx
            have hx2 : x ∈ st2.assigned ∪ c.toFinset := hx
            rcases Finset.mem_union.mp hx2 with h | h
            · exact hpost02.assigned_new x h
            · right
              have hxc := List.mem_toFinset.mp h
              rcases List.mem_append.mp hxc with h2 | h2
              · exact (hmidP x h2).1
              · rw [List.mem_singleton] at h2
                subst h2
                exact hfresh
          · exact ⟨[], rfl, by simp⟩
          · obtain ⟨cs, hcs⟩ := hpost02.comps_grow
            refine ⟨cs ++ [c], ?_⟩
            show st2.components ++ [c] = _
            rw [hcs, List.append_assoc]
        · show node ∈ st2.assigned ∪ c.toFinset
          refine Finset.mem_union_right _ (List.mem_toFinset.mpr ?_)
          exact List.mem_append_right _ (List.mem_singleton.mpr rfl)
        · intro x hx hx2
          have hx3 : st2.pre x ≠ none := hx2
          show x ∈ st2.assigned ∪ c.toFinset
          rcases hinv2.dom_split x hx3 with h | h
          · rw [hS2alt] at h
            rcases List.mem_append.mp h with h | h
            · exact Finset.mem_union_right _ (List.mem_toFinset.mpr h)
            · exact absurd hx (fun hxn =>
                (hinv.S_sub_dom x h) hxn)
          · exact Finset.mem_union_left _ h
    · -- the node collapsed into an ancestor component
      obtain ⟨k2, rfl⟩ : ∃ k2, k = k2 + 1 := ⟨k - 1, by omega⟩
      have hP2 : st2.P = st.P.drop k2 := by
        have hPk2 : st2.P = (node :: st.P).drop (k2 + 1) := hPk
        rw [hPk2, List.drop_succ_cons]
      have hemit : sccEmit node st2 = st2 := by
        cases hP2c : st2.P with
        | nil => exact sccEmit_nil node st2 hP2c
        | cons top ptail =>
          have htopP : top ∈ st.P := by
            refine List.drop_subset k2 st.P ?_
            rw [← hP2, hP2c]
            exact List.mem_cons_self _ _
          have htopdom := hinv.P_sub_dom top htopP
          cases hvt : st.pre top with
          | none => exact absurd hvt htopdom
          | some vt =>
            have hltc := hinv.pre_lt_count top vt hvt
            have h2t : st2.pre top = some vt := hpost02.preStable top vt hvt
            refine sccEmit_cons_ne node top ptail st2 hP2c ?_
            rw [h2t, hpre2node]
            intro h
            rw [Option.some.injEq] at h
            omega
      rw [hemit]
      have hnodeS2 : node ∈ st2.S := by
        rw [hS2]
        exact List.mem_append_right _ (List.mem_cons_self _ _)
      have hnass2 : node ∉ st2.assigned := hinv2.S_unassigned node hnodeS2
      refine ⟨hinv2, hpost02, hpre2node,
        Or.inr ⟨hnass2, ⟨k2, hP2, ?_⟩, ?_⟩⟩
      · intro j hj x hx
        have hx1 : (node :: st.P)[j + 1]? = some x := by
          rw [List.getElem?_cons_succ]
          exact hx
        obtain ⟨y, vy, vx, hy, hyass, hx2, hlt⟩ :=
          hwit (j + 1) (by omega) x hx1
        exact ⟨y, vy, vx, hy, hyass, hx2, hlt⟩
      · obtain ⟨y, vy, vx, hy, hyass, hx2, hlt⟩ :=
          hwit 0 (by omega) node (List.getElem?_cons_zero)
        have hvx : vx = st.count := by
          rw [hpre2node] at hx2
          exact (Option.some.inj hx2).symm
        exact ⟨y, vy, hy, by omega, hyass⟩

/-- The initial SCC state satisfies the invariant. -/
theorem initSCC_inv (g : Graph) : SCCInv g initSCC := by
  constructor
  · intro n v h
    have h2 : (none : Option Nat) = some v := h
    cases h2
  · intro x hx
    exact absurd hx (List.not_mem_nil x)
  · intro x hx
    exact absurd hx (List.not_mem_nil x)
  · intro x hx
    exact absurd hx (Finset.not_mem_empty x)
  · intro x hx
    exact absurd rfl hx
  · exact List.nodup_nil
  · intro x hx
    exact absurd hx (List.not_mem_nil x)
  · rfl
  · exact List.nodup_nil
  · intro x hx
    exact absurd rfl hx

/-- The outer SCC loop, started from a state with empty path and
component stacks, keeps the invariant, only grows the assigned set, and
assigns every root: each root's DFS either finds it already assigned or
emits its component, since the collapse case would require an unassigned
node on the (empty) stack. -/
theorem sccOuter_spec (g : Graph) (roots : List Nat) (st : SCCState)
    (hinv : SCCInv g st) (hP : st.P = []) (hS : st.S = [])
    (hroots : ∀ x ∈ roots, x ∈ g.univF) :
    SCCInv g (sccOuter g roots st) ∧
    (sccOuter g roots st).P = [] ∧ (sccOuter g roots st).S = [] ∧
    st.assigned ⊆ (sccOuter g roots st).assigned ∧
    ∀ x ∈ roots, x ∈ (sccOuter g roots st).assigned := by
  induction roots generalizing st with
  | nil =>
    rw [sccOuter]
    exact ⟨hinv, hP, hS, Finset.Subset.refl _,
      fun x hx => absurd hx (List.not_mem_nil x)⟩
  | cons v rest ih =>
    by_cases hass : v ∈ st.assigned
    · rw [sccOuter, if_pos hass]
      obtain ⟨h1, h2, h3, h4, h5⟩ := ih st hinv hP hS
        (fun x hx => hroots x (List.mem_cons_of_mem _ hx))
      refine ⟨h1, h2, h3, h4, ?_⟩
      intro x hx
      rcases List.mem_cons.mp hx with rfl | hx
      · exact h4 hass
      · exact h5 x hx
    · rw [sccOuter, if_neg hass]
      have hfresh : st.pre v = none := by
        cases hpre : st.pre v with
        | none => rfl
        | some pv =>
          have hne : st.pre v ≠ none := by
            rw [hpre]
            intro h
            cases h
          rcases hinv.dom_split v hne with h | h
          · rw [hS] at h
            cases h
          · exact absurd h hass
      have hspec := sccGo_spec g (Sum.inl v) st hinv
      obtain ⟨hinv2, hpost, hprev, hcase⟩ :=
        hspec hfresh (hroots v (List.mem_cons_self _ _))
      rcases hcase with ⟨hassn, hP2, hS2, hall⟩ |
        ⟨hnass, hdrop, y, vy, hy, hylt, hyass⟩
      · have hP2e : (sccGo g (Sum.inl v) st).1.P = [] := by rw [hP2, hP]
        have hS2e : (sccGo g (Sum.inl v) st).1.S = [] := by rw [hS2, hS]
        obtain ⟨h1, h2, h3, h4, h5⟩ := ih _ hinv2 hP2e hS2e
          (fun x hx => hroots x (List.mem_cons_of_mem _ hx))
        refine ⟨h1, h2, h3,
          Finset.Subset.trans hpost.assigned_mono h4, ?_⟩
        intro x hx
        rcases List.mem_cons.mp hx with rfl | hx
        · exact h4 hassn
        · exact h5 x hx
      · exfalso
        have hyne : st.pre y ≠ none := by
          rw [hpost.oldLow y vy hy hylt]
          intro h
          cases h
        rcases hinv.dom_split y hyne with h | h
        · rw [hS] at h
          cases h
        · exact absurd h hyass

/-- The partition property of the strong-component computation: on a
well-formed directed graph it succeeds and its components concatenate to
a permutation of the node list. -/
theorem scc_flatten_perm (g : Graph) (hWF : g.WF)
    (ht : g.type = GraphType.directed) :
    ∃ comps, stronglyConnectedComponents g = Except.ok comps ∧
      comps.flatten.Perm g.nodeIds := by
  unfold stronglyConnectedComponents
  by_cases h0 : g.order = 0
  · rw [if_pos h0]
    refine ⟨[], rfl, ?_⟩
    have hn : g.nodes = [] := List.length_eq_zero.mp h0
    have hids : g.nodeIds = [] := by simp [Graph.nodeIds, hn]
    rw [hids]
    exact List.Perm.refl _
  · rw [if_neg h0]
    have hund : ¬ g.type = GraphType.undirected := by
      rw [ht]
      intro h
      cases h
    rw [if_neg hund]
    by_cases hs : g.size = 0
    · rw [if_pos hs]
      refine ⟨_, rfl, ?_⟩
      rw [flatten_map_singleton]
    · rw [if_neg hs]
      refine ⟨_, rfl, ?_⟩
      have hroots : ∀ x ∈ g.nodeIds, x ∈ g.univF := by
        intro x hx
        exact nodesF_subset_univF g (List.mem_toFinset.mpr hx)
      obtain ⟨hinv3, hP3, hS3, hsub3, hall3⟩ :=
        sccOuter_spec g g.nodeIds initSCC (initSCC_inv g) rfl rfl hroots
      apply List.perm_of_nodup_nodup_toFinset_eq hinv3.flat_nodup hWF.1
      rw [hinv3.flat_eq]
      apply Finset.ext
      intro x
      simp only [List.mem_toFinset]
      constructor
      · intro hx
        have hne := hinv3.assigned_sub_dom x hx
        exact (univF_mem_iff g hWF x).mp (hinv3.dom_sub_univ x hne)
      · intro hx
        exact hall3 x hx

/-- With no edges at all, the walk from pairwise-distinct unseen roots
emits exactly one singleton component per root. -/
theorem weakGoFull_no_edges (g : Graph) (hE : g.edges = [])
    (roots : List Nat) (seen : Finset Nat) (hnd : roots.Nodup)
    (hfresh : ∀ r ∈ roots, r ∉ seen) :
    (weakGoFull g roots seen).1 = roots.map (fun n => [n]) := by
  induction roots generalizing seen with
  | nil => rw [weakGoFull]; rfl
  | cons r rest ih =>
    have hr : r ∉ seen := hfresh r (List.mem_cons_self _ _)
    rw [weakGoFull, if_neg hr]
    have hnb : g.neighbors r = [] := by rw [Graph.neighbors, hE]; rfl
    have hdfs : dfsGo g seen [r] = ([r], insert r seen) := by
      rw [dfsGo_cons_new _ _ _ hr, hnb]
      simp only [List.filter_nil, List.reverse_nil, List.nil_append,
        dfsGo_nil]
    rw [List.map_cons]
    simp only [hdfs]
    congr 1
    refine ih _ (List.Nodup.of_cons hnd) ?_
    intro x hx
    rw [Finset.mem_insert]
    push_neg
    refine ⟨?_, hfresh x (List.mem_cons_of_mem _ hx)⟩
    intro hxr
    exact (List.nodup_cons.mp hnd).1 (hxr ▸ hx)

/-! Concrete example graphs used in claims and witnesses. -/

/-- The directed 3-cycle 1→2→3→1. -/
def gCycle : Graph :=
  Graph.mk [(1, 10), (2, 20), (3, 30)]
    [Edge.mk 0 1 2 false 0, Edge.mk 1 2 3 false 0, Edge.mk 2 3 1 false 0]
    GraphType.directed

/-- The directed path 1→2→3 with no back edge. -/
def gPathD : Graph :=
  Graph.mk [(1, 10), (2, 20), (3, 30)]
    [Edge.mk 0 1 2 false 0, Edge.mk 1 2 3 false 0]
    GraphType.directed

/-- The undirected graph with no nodes at all. -/
def gEmptyUndirected : Graph := Graph.mk [] [] GraphType.undirected

/-- The directed graph with no nodes at all. -/
def gEmptyDirected : Graph := Graph.mk [] [] GraphType.directed

/-- An undirected graph with one node and no edges. -/
def gOneUndirected : Graph := Graph.mk [(1, 0)] [] GraphType.undirected

/-- The spec scenario graph: nodes 1..5, undirected edges 1-2, 2-3,
4-5. -/
def gTwoComp : Graph :=
  Graph.mk [(1, 11), (2, 12), (3, 13), (4, 14), (5, 15)]
    [Edge.mk 0 1 2 true 7, Edge.mk 1 2 3 true 8, Edge.mk 2 4 5 true 9]
    GraphType.undirected

/-- A directed graph with two isolated nodes and no edges. -/
def gIsolated : Graph :=
  Graph.mk [(1, 0), (2, 0)] [] GraphType.directed

/-! Claim theorems. -/

/-- C1: for every well-formed graph the weak components emitted by
`forEachConnectedComponent` concatenate to a permutation of the node
list, and on a directed graph `stronglyConnectedComponents` succeeds
with components that also concatenate to a permutation of the node
list: in both cases every node appears in exactly one component. -/
theorem claim_C1 (g : Graph) (hWF : g.WF) :
    (forEachConnectedComponent g).flatten.Perm g.nodeIds ∧
    (g.type = GraphType.directed →
      ∃ comps, stronglyConnectedComponents g = Except.ok comps ∧
        comps.flatten.Perm g.nodeIds) :=
  ⟨connectedComponents_flatten_perm g hWF,
   fun ht => scc_flatten_perm g hWF ht⟩

theorem claim_C1_witness :
    gCycle.WF ∧
    ((forEachConnectedComponent gCycle).flatten.Perm gCycle.nodeIds ∧
     (gCycle.type = GraphType.directed →
       ∃ comps, stronglyConnectedComponents gCycle = Except.ok comps ∧
         comps.flatten.Perm gCycle.nodeIds)) :=
  ⟨by decide, claim_C1 gCycle (by decide)⟩

/-- C2: for every well-formed graph with at least one node,
`largestConnectedComponent` returns a weak component at least as large
as every other; when several tie, the first discovered in
node-enumeration order wins (every earlier component is strictly
smaller); and the early-exit test never changes the result relative to
folding the champion update over a full traversal. -/
theorem claim_C2 (g : Graph) (hWF : g.WF) (h0 : g.nodes ≠ []) :
    (∀ C ∈ connectedComponents g,
      C.length ≤ (largestConnectedComponent g).length) ∧
    largestConnectedComponent g
      = List.foldl pickLarger [] (connectedComponents g) ∧
    ∃ i : Nat,
      (connectedComponents g)[i]? = some (largestConnectedComponent g) ∧
      ∀ j, j < i → ∀ C : List Nat, (connectedComponents g)[j]? = some C →
        C.length < (largestConnectedComponent g).length := by
  have hfold := largestConnectedComponent_eq_foldl g hWF
  refine ⟨?_, hfold, ?_⟩
  · intro C hC
    rw [hfold]
    exact foldl_pickLarger_mem_le [] (connectedComponents g) C hC
  · rcases foldl_pickLarger_first [] (connectedComponents g) with
      ⟨heq, hle⟩ | ⟨i, hi, _, hfirst⟩
    · exfalso
      have hmem := largest_mem_components g hWF h0
      have hne := largest_ne_nil g hWF h0
      have hlen := hle _ hmem
      simp only [List.length_nil, Nat.le_zero, List.length_eq_zero] at hlen
      exact hne hlen
    · exact ⟨i, by rw [hfold]; exact hi, by rw [hfold]; exact hfirst⟩

/-- C2 witness at the spec scenario graph. -/
theorem claim_C2_witness :
    gTwoComp.WF ∧ gTwoComp.nodes ≠ [] ∧
    ((∀ C ∈ connectedComponents gTwoComp,
        C.length ≤ (largestConnectedComponent gTwoComp).length) ∧
      largestConnectedComponent gTwoComp
        = List.foldl pickLarger [] (connectedComponents gTwoComp) ∧
      ∃ i : Nat,
        (connectedComponents gTwoComp)[i]?
          = some (largestConnectedComponent gTwoComp) ∧
        ∀ j, j < i → ∀ C : List Nat,
          (connectedComponents gTwoComp)[j]? = some C →
          C.length < (largestConnectedComponent gTwoComp).length) :=
  ⟨by decide, by decide, claim_C2 gTwoComp (by decide) (by decide)⟩

/-- C3 counterexample: the undirected graph with zero nodes does not
raise; `stronglyConnectedComponents` returns an empty result before the
directionality check. -/
theorem claim_C3_counterexample :
    gEmptyUndirected.type = GraphType.undirected ∧
    gEmptyUndirected.WF ∧
    stronglyConnectedComponents gEmptyUndirected = Except.ok [] ∧
    ¬ ∃ msg, stronglyConnectedComponents gEmptyUndirected
        = Except.error msg := by
  refine ⟨rfl, by decide, ?_, ?_⟩
  · rfl
  · rintro ⟨msg, hmsg⟩
    rw [show stronglyConnectedComponents gEmptyUndirected = Except.ok []
      from rfl] at hmsg
    cases hmsg

/-- C3 (amended): for every graph classified as undirected with at least
one node, `stronglyConnectedComponents` raises the wrong-directionality
error and returns no partial results; the undirected graph with zero
nodes instead returns an empty list. -/
theorem claim_C3 (g : Graph) (ht : g.type = GraphType.undirected)
    (h0 : g.nodes ≠ []) :
    stronglyConnectedComponents g
      = Except.error "graphology-components: the given graph is undirected"
      := by
  rw [stronglyConnectedComponents]
  rw [if_neg (by simp [Graph.order, h0]), if_pos ht]

/-- C3 witness at a one-node undirected graph. -/
theorem claim_C3_witness :
    gOneUndirected.type = GraphType.undirected ∧ gOneUndirected.nodes ≠ [] ∧
    stronglyConnectedComponents gOneUndirected
      = Except.error "graphology-components: the given graph is undirected"
      :=
  ⟨rfl, by decide, claim_C3 gOneUndirected rfl (by decide)⟩

/-- C4: strong components respect direction. The directed cycle
1→2→3→1 yields the single strong component containing 1, 2 and 3; the
directed path 1→2→3 yields three singleton strong components; and the
weak-component walker, reading the same edges as undirected adjacency,
returns one component containing 1, 2 and 3 in both cases. -/
theorem claim_C4 :
    stronglyConnectedComponents gCycle = Except.ok [[3, 2, 1]] ∧
    ([3, 2, 1] : List Nat).toFinset = {1, 2, 3} ∧
    stronglyConnectedComponents gPathD = Except.ok [[3], [2], [1]] ∧
    connectedComponents gCycle = [[1, 3, 2]] ∧
    ([1, 3, 2] : List Nat).toFinset = {1, 2, 3} ∧
    connectedComponents gPathD = [[1, 2, 3]] := by
  refine ⟨?_, by decide, ?_, ?_, by decide, ?_⟩
  · simp [stronglyConnectedComponents, sccOuter, sccGo, initSCC, gCycle,
      Graph.outboundNeighbors, Edge.outTo, sccEmit, popUntilEq,
      popWhileGreater, SCCState.pre, List.lookup, Graph.order, Graph.size,
      Graph.nodeIds, Graph.univF, Graph.univ]
  · simp [stronglyConnectedComponents, sccOuter, sccGo, initSCC, gPathD,
      Graph.outboundNeighbors, Edge.outTo, sccEmit, popUntilEq,
      popWhileGreater, SCCState.pre, List.lookup, Graph.order, Graph.size,
      Graph.nodeIds, Graph.univF, Graph.univ]
  · simp [connectedComponents, forEachConnectedComponent, weakGoFull, dfsGo,
      gCycle, Graph.neighbors, Edge.other, Graph.order, Graph.nodeIds]
  · simp [connectedComponents, forEachConnectedComponent, weakGoFull, dfsGo,
      gPathD, Graph.neighbors, Edge.other, Graph.order, Graph.nodeIds]

/-- C5: the subgraph of the largest component contains exactly the
component nodes, no edge of it dangles (both endpoints are present), and
every copied node attribute and edge record is identical to the source
graph. -/
theorem claim_C5 (g : Graph) (hWF : g.WF) :
    (largestConnectedComponentSubgraph g).nodeIds
      = largestConnectedComponent g ∧
    (∀ e ∈ (largestConnectedComponentSubgraph g).edges,
      e.source ∈ (largestConnectedComponentSubgraph g).nodeIds ∧
      e.target ∈ (largestConnectedComponentSubgraph g).nodeIds) ∧
    (∀ k ∈ (largestConnectedComponentSubgraph g).nodeIds,
      (largestConnectedComponentSubgraph g).getNodeAttr k
        = g.getNodeAttr k) ∧
    (∀ e ∈ (largestConnectedComponentSubgraph g).edges, e ∈ g.edges) := by
  have hids : (largestConnectedComponentSubgraph g).nodeIds
      = largestConnectedComponent g := by
    rw [largestConnectedComponentSubgraph, Graph.nodeIds]
    simp only [List.map_map]
    exact List.map_id (largestConnectedComponent g)
  refine ⟨hids, ?_, ?_, ?_⟩
  · intro e he
    rw [largestConnectedComponentSubgraph] at he
    simp only [List.mem_filter, decide_eq_true_eq] at he
    rw [hids]
    refine ⟨he.2, ?_⟩
    refine largest_closed g hWF e.source he.2 e.target ?_
    refine self_mem_neighbors_of_other g he.1 ?_
    rw [Edge.other, if_pos rfl]
  · intro k hk
    rw [hids] at hk
    rw [largestConnectedComponentSubgraph, Graph.getNodeAttr]
    simp only
    rw [lookup_map_self _ _ k hk]
    rfl
  · intro e he
    rw [largestConnectedComponentSubgraph] at he
    exact List.mem_of_mem_filter he

/-- C5 witness at the spec scenario graph. -/
theorem claim_C5_witness :
    gTwoComp.WF ∧
    ((largestConnectedComponentSubgraph gTwoComp).nodeIds
        = largestConnectedComponent gTwoComp ∧
      (∀ e ∈ (largestConnectedComponentSubgraph gTwoComp).edges,
        e.source ∈ (largestConnectedComponentSubgraph gTwoComp).nodeIds ∧
        e.target ∈ (largestConnectedComponentSubgraph gTwoComp).nodeIds) ∧
      (∀ k ∈ (largestConnectedComponentSubgraph gTwoComp).nodeIds,
        (largestConnectedComponentSubgraph gTwoComp).getNodeAttr k
          = gTwoComp.getNodeAttr k) ∧
      (∀ e ∈ (largestConnectedComponentSubgraph gTwoComp).edges,
        e ∈ gTwoComp.edges)) :=
  ⟨by decide, claim_C5 gTwoComp (by decide)⟩

/-- C6 counterexample: on the well-formed graph with zero nodes the
crop leaves the graph empty, and re-running the weak-component
enumeration yields zero components, not exactly one. -/
theorem claim_C6_counterexample :
    gEmptyDirected.WF ∧
    ¬ ∃ c, forEachConnectedComponent
        (cropToLargestConnectedComponent gEmptyDirected) = [c] := by
  refine ⟨by decide, ?_⟩
  rintro ⟨c, hc⟩
  rw [show forEachConnectedComponent
      (cropToLargestConnectedComponent gEmptyDirected) = [] from rfl] at hc
  cases hc

/-- C6 (amended): for every well-formed graph with at least one node,
after the crop the node set equals exactly the node set of the largest
weak component, and re-running the weak-component enumeration on the
mutated graph yields exactly one component containing every remaining
node exactly once. The graph with zero nodes is unchanged by the crop
and yields zero components. -/
theorem claim_C6 (g : Graph) (hWF : g.WF) (h0 : g.nodes ≠ []) :
    (cropToLargestConnectedComponent g).nodesF
      = (largestConnectedComponent g).toFinset ∧
    ∃ c, forEachConnectedComponent (cropToLargestConnectedComponent g)
        = [c] ∧
      c.Perm (cropToLargestConnectedComponent g).nodeIds :=
  ⟨crop_nodesF g hWF, crop_one_component g hWF h0⟩

/-- C6 witness at the spec scenario graph. -/
theorem claim_C6_witness :
    gTwoComp.WF ∧ gTwoComp.nodes ≠ [] ∧
    ((cropToLargestConnectedComponent gTwoComp).nodesF
        = (largestConnectedComponent gTwoComp).toFinset ∧
      ∃ c, forEachConnectedComponent
          (cropToLargestConnectedComponent gTwoComp) = [c] ∧
        c.Perm (cropToLargestConnectedComponent gTwoComp).nodeIds) :=
  ⟨by decide, by decide, claim_C6 gTwoComp (by decide) (by decide)⟩

/-- C7: a well-formed graph with nodes but no edges yields the
singleton-per-node partition from the weak walker and, when directed,
from `stronglyConnectedComponents` as well. -/
theorem claim_C7 (g : Graph) (hWF : g.WF) (hE : g.edges = [])
    (h0 : g.nodes ≠ []) :
    connectedComponents g = g.nodeIds.map (fun n => [n]) ∧
    (g.type = GraphType.directed →
      stronglyConnectedComponents g
        = Except.ok (g.nodeIds.map (fun n => [n]))) := by
  constructor
  · rw [connectedComponents, forEach_eq_weakGoFull]
    exact weakGoFull_no_edges g hE g.nodeIds ∅ hWF.1 (by simp)
  · intro ht
    rw [stronglyConnectedComponents,
      if_neg (by simp [Graph.order, h0]),
      if_neg (by rw [ht]; intro h; cases h),
      if_pos (by simp [Graph.size, hE])]

/-- C7 witness at a directed graph with two isolated nodes. -/
theorem claim_C7_witness :
    gIsolated.WF ∧ gIsolated.edges = [] ∧ gIsolated.nodes ≠ [] ∧
    (connectedComponents gIsolated
        = gIsolated.nodeIds.map (fun n => [n]) ∧
      (gIsolated.type = GraphType.directed →
        stronglyConnectedComponents gIsolated
          = Except.ok (gIsolated.nodeIds.map (fun n => [n])))) :=
  ⟨by decide, rfl, by decide, claim_C7 gIsolated (by decide) rfl (by decide)⟩

/-- C8: the size-only variant invokes its callback once per component
with exactly the length of the component that the full variant passes at
the same position. -/
theorem claim_C8 (g : Graph) :
    forEachConnectedComponentOrder g
      = (forEachConnectedComponent g).map List.length := by
  rw [forEachConnectedComponentOrder, forEachConnectedComponent]
  split
  · rfl
  · rw [orderGoFull_eq]

/-- C9: the four weak-component traversal operations perform only read
calls on the graph; in the state-passing embedding each returns the
graph it was given, unchanged, along with the same result as the plain
embedding. -/
theorem claim_C9 (g : Graph) :
    forEachConnectedComponentRun g = (forEachConnectedComponent g, g) ∧
    forEachConnectedComponentOrderRun g
      = (forEachConnectedComponentOrder g, g) ∧
    connectedComponentsRun g = (connectedComponents g, g) ∧
    largestConnectedComponentRun g = (largestConnectedComponent g, g) := by
  have h1 : forEachConnectedComponentRun g
      = (forEachConnectedComponent g, g) := by
    rw [forEachConnectedComponentRun, forEachConnectedComponent]
    split
    · rfl
    · rw [weakGoRun_frame]
  refine ⟨h1, ?_, ?_, ?_⟩
  · rw [forEachConnectedComponentOrderRun, forEachConnectedComponentOrder]
    split
    · rfl
    · rw [orderGoRun_frame]
  · rw [connectedComponentsRun, connectedComponents]
    exact h1
  · rw [largestConnectedComponentRun, largestConnectedComponent]
    split
    · rfl
    · rw [largestGoRun_frame]

/-- C10: on a graph with zero nodes `largestConnectedComponent` returns
the empty list rather than raising or returning an undefined value. -/
theorem claim_C10 (g : Graph) (h0 : g.nodes = []) :
    largestConnectedComponent g = [] := by
  rw [largestConnectedComponent, if_pos (by simp [Graph.order, h0])]

/-- C10 witness at the empty undirected graph. -/
theorem claim_C10_witness :
    gEmptyUndirected.nodes = [] ∧
    largestConnectedComponent gEmptyUndirected = [] :=
  ⟨rfl, claim_C10 gEmptyUndirected rfl⟩

end Graphology
